import Mathlib

/-!
# scenario_expression: the expression handle and the document reader

A verification development for `scenario_expression/expression.h`.

The header defines a reference-counted handle `Expression` (a `data` pointer
to a heap-allocated node object that carries the `reference_count`), the node
classes `Literal`, `Logical` (`And`, `Or`), `Procedure` / `Predicate`, and the
recursive-descent function `read` from a YAML node to a handle.

Two views of the same code are embedded, and the reader a third time with
the one exception that can leave it.

* The value view (`scenario_expression.read`): a handle together with
  everything reachable from it, as a tree.  It is used for the claims about
  the shape of the tree that `read` builds.
* The store view (`scenario_expression.Counted`): node objects live in a
  store indexed by address, handles are `data` pointers, and every increment,
  decrement and `delete` of the source is an explicit step.  It is used for
  the ownership claims.
* The reader with the exception (`scenario_expression.Throwing`): `read`
  converts the value of `"Type"` to a string with yaml-cpp's
  `as<std::string>()`, which throws on a value that is no scalar.  Both views
  above describe `read` returning; `Throwing.read` says whether it returns or
  is left by that exception, and `Throwing.read_returns` shows that the handle
  it returns is the one of the value view.

`Counted.read_view` shows that the two views agree: the tree that hangs from
the handle returned by the store-level `read` is the value of `read`.
-/

namespace scenario_expression

/-! ## The document tree (`YAML::Node`) -/

/-- A parsed YAML document node.  Map keys are the scalar keys of the
document; `read` only ever looks a map up by a string, and a non-scalar key
never compares equal to a string. -/
inductive Node where
  | Null
  | Scalar (text : String)
  | Sequence (items : List Node)
  | Map (entries : List (String × Node))
deriving Repr

/-- The lookup `node[key]` on a map: the value of the first entry whose key is
`key`.  The source tests the returned node in an `if`, which is true exactly
when the key is present; absence is `none` here. -/
def Node.get (key : String) : List (String × Node) → Option Node
  | [] => none
  | (k, v) :: rest => if k = key then some v else Node.get key rest

/-- A value found by `Node.get` is a strict sub-node of the map. -/
theorem Node.get_sizeOf {key : String} {entries : List (String × Node)} {v : Node}
    (h : Node.get key entries = some v) : sizeOf v < sizeOf entries := by
  induction entries with
  | nil => simp [Node.get] at h
  | cons e rest ih =>
    obtain ⟨k, w⟩ := e
    simp only [Node.get] at h
    split at h
    · cases h
      simp
      omega
    · have := ih h
      simp
      omega

/-! ## Value view -/

/-- A handle seen together with what it points to: `null` is a handle whose
`data` is `nullptr`; the other constructors are a handle whose `data` points
to a node object of that class.  `And` is `Logical<std::logical_and>`, `Or` is
`Logical<std::logical_or>`; their argument is the `operands` vector.  The
constructors `Procedure(const YAML::Node&)` and `Literal(const YAML::Node&)`
store nothing of the node, so `Predicate` and `Literal` carry no field. -/
inductive Expression where
  | null
  | Literal
  | And (operands : List Expression)
  | Or (operands : List Expression)
  | Predicate
deriving Repr

/-- A handle is empty when its `data` is `nullptr`. -/
def Expression.isNull : Expression → Bool
  | .null => true
  | _ => false

/-- The handle points to a `Logical` node object (`And` or `Or`). -/
def Expression.isLogical : Expression → Bool
  | .And _ => true
  | .Or _ => true
  | _ => false

/-- The handle points to a `Literal` node object. -/
def Expression.isLiteral : Expression → Bool
  | .Literal => true
  | _ => false

/-- The `operands` vector of the node object a handle points to (empty for a
handle that points to no `Logical`). -/
def Expression.operands : Expression → List Expression
  | .And ops => ops
  | .Or ops => ops
  | _ => []

mutual
/-- The function `read` of the source.  The scalar and the sequence branch only
log and fall through to `return {}`; a node that is none of scalar, sequence,
map (a null node) falls through as well.  In a map the keys are tried in the
order `"All"`, `"Any"`, `"Type"`; under `"Type"` the presence of `"Params"`
only logs and falls through.  This is the handle that `read` returns: the
printing under `"Type"` converts the value of `"Type"` to a string, which
throws on a value that is no scalar, and whether `read` returns or is left by
that exception is given by `Throwing.read` below. -/
def read : Node → Expression
  | .Scalar _ => .null
  | .Sequence _ => .null
  | .Null => .null
  | .Map entries =>
    match h_and : Node.get "All" entries with
    | some node_and => .And (Logical node_and)
    | none =>
      match h_or : Node.get "Any" entries with
      | some node_or => .Or (Logical node_or)
      | none =>
        match Node.get "Type" entries with
        | some _ =>
          match Node.get "Params" entries with
          | some _ => .null
          | none => .Predicate
        | none => .null
termination_by n => sizeOf n
decreasing_by
  all_goals simp_wf
  · have := Node.get_sizeOf h_and; omega
  · have := Node.get_sizeOf h_or; omega
/-- The constructor `Logical(const YAML::Node& operands_node)`: the `operands`
vector it leaves behind.  Only a sequence is iterated. -/
def Logical : Node → List Expression
  | .Sequence items => push_back_each items
  | _ => []
termination_by n => sizeOf n
/-- The loop `for (const auto& each : operands_node) operands.push_back(read(each))`. -/
def push_back_each : List Node → List Expression
  | [] => []
  | each :: rest => read each :: push_back_each rest
termination_by items => sizeOf items
end

/-- The nodes that the constructor `Logical(const YAML::Node& operands_node)`
passes to `read`: the items of `operands_node` when it is a sequence, nothing
otherwise. -/
def Logical_calls : Node → List Node
  | .Sequence items => items
  | _ => []

/-- The nodes that a call of `read` passes to `read` again: those of the
constructor of the `And` node made from the value of `"All"` or, without
`"All"`, of the `Or` node made from the value of `"Any"`.  No other branch of
`read` calls `read`. -/
def read_calls : Node → List Node
  | .Map entries =>
    match Node.get "All" entries with
    | some node_and => Logical_calls node_and
    | none =>
      match Node.get "Any" entries with
      | some node_or => Logical_calls node_or
      | none => []
  | _ => []

/-! ## The reader with the exception of the conversion -/

namespace Throwing

/-- The exception that can leave `read`: `YAML::TypedBadConversion<std::string>`,
thrown by `node_type.as<std::string>()`.  The header has no `throw` and no
`try` of its own. -/
inductive Exception where
  | TypedBadConversion
deriving Repr, DecidableEq

/-- The conversion `node.as<std::string>()` of yaml-cpp: the text of a scalar
node; on a sequence and on a map it throws, which is `none`.  On a null node
the releases of yaml-cpp differ: the older ones throw as on every node that is
not a scalar, the newer ones give the text `null`; `null_converts` says which
one is in use. -/
def as_string (null_converts : Bool) : Node → Option String
  | .Scalar text => some text
  | .Null => if null_converts then some "null" else none
  | .Sequence _ => none
  | .Map _ => none

mutual
/-- The function `read` of the source with the exception: the handle it
returns, or the exception that leaves it.  Both branches under `"Type"`
convert the value of `"Type"` to a string for printing, the predicate branch
before `make<Predicate>` is called; nothing in the header catches the
exception, so the one thrown while an item is read leaves the constructor of
the `Logical`, `make` and the enclosing `read` as well. -/
def read (null_converts : Bool) : Node → Except Exception Expression
  | .Scalar _ => .ok .null
  | .Sequence _ => .ok .null
  | .Null => .ok .null
  | .Map entries =>
    match h_and : Node.get "All" entries with
    | some node_and =>
      match Logical null_converts node_and with
      | .error e => .error e
      | .ok operands => .ok (.And operands)
    | none =>
      match h_or : Node.get "Any" entries with
      | some node_or =>
        match Logical null_converts node_or with
        | .error e => .error e
        | .ok operands => .ok (.Or operands)
      | none =>
        match Node.get "Type" entries with
        | some node_type =>
          match Node.get "Params" entries with
          | some _ =>
            match as_string null_converts node_type with
            | none => .error .TypedBadConversion
            | some _ => .ok .null
          | none =>
            match as_string null_converts node_type with
            | none => .error .TypedBadConversion
            | some _ => .ok .Predicate
        | none => .ok .null
termination_by n => sizeOf n
decreasing_by
  all_goals simp_wf
  · have := Node.get_sizeOf h_and; omega
  · have := Node.get_sizeOf h_or; omega
/-- The constructor `Logical(const YAML::Node& operands_node)`: the `operands`
vector it leaves behind, or the exception that leaves it. -/
def Logical (null_converts : Bool) : Node → Except Exception (List Expression)
  | .Sequence items => push_back_each null_converts items
  | _ => .ok []
termination_by n => sizeOf n
/-- The loop `for (const auto& each : operands_node) operands.push_back(read(each))`:
the items are read first to last and the first exception ends the loop. -/
def push_back_each (null_converts : Bool) : List Node → Except Exception (List Expression)
  | [] => .ok []
  | each :: rest =>
    match read null_converts each with
    | .error e => .error e
    | .ok operand =>
      match push_back_each null_converts rest with
      | .error e => .error e
      | .ok operands => .ok (operand :: operands)
termination_by items => sizeOf items
end

end Throwing

/-! ## Evaluation and procedure loading -/

/-- How control leaves the body of a function that has a return type: through
a `return` statement, with a value, or by reaching the closing brace without
one, in which case no value is produced (undefined behaviour in C++). -/
inductive Completion (α : Type) where
  | returned (value : α)
  | off_the_end
deriving Repr

/-- The member `Expression::evaluate()`, `virtual Expression evaluate() {}`: the
body is empty and does not look at `data`.  A handle is itself an object of
class `Expression`, so a call of `evaluate` on a handle runs this function
whatever the handle points to. -/
def Expression.evaluate (_handle : Expression) : Completion Expression :=
  .off_the_end

/-- The member `Logical::evaluate()`, `virtual Expression evaluate() { }`, on a
node with the given `operands`: the body is empty.  The second component lists
the operands it evaluates: none. -/
def Logical.evaluate (_operands : List Expression) : Completion Expression × List Expression :=
  (.off_the_end, [])

/-- The member `Procedure::load(name)`: the first declared name equal to
`name` is passed to `createInstance` and the result returned; when the loop
ends without a match an error is logged and the null pointer returned.
`declarations` is what `loader().getDeclaredClasses()` gives and
`createInstance` stands for `loader().createInstance`, both of pluginlib; a
`boost::shared_ptr` is `none` when null.  The second component lists the names
`createInstance` is called with. -/
def Procedure.load {Plugin : Type} (declarations : List String)
    (createInstance : String → Option Plugin) (name : String) : Option Plugin × List String :=
  match declarations with
  | [] => (none, [])
  | declaration :: rest =>
    if declaration = name then (createInstance declaration, [declaration])
    else Procedure.load rest createInstance name

/-! ## Store view -/

namespace Counted

/-- The node classes that `Expression::make` is instantiated with. -/
inductive NodeType where
  | Literal
  | And
  | Or
  | Predicate
deriving DecidableEq, Repr

/-- A node object on the free store.  Every node class derives from
`Expression` through the protected constructor, which sets the object's own
`data` to `nullptr` (never changed afterwards, so not recorded) and its
`reference_count` to 1.  `operands` holds the `data` pointers of the handles in
the `operands` vector of a `Logical` (empty for the other classes).  `deleted`
records that `delete` has been applied to the object. -/
structure Object where
  type : NodeType
  reference_count : Nat
  operands : List (Option Nat)
  deleted : Bool
deriving DecidableEq, Repr

/-- The free store: the address of an object is its index.  Addresses are
never reused. -/
abbrev Store := List Object

/-- The `data` member of a handle: `none` is `nullptr`.  A handle's own
`reference_count` member is always 0 and never read; a handle is represented
by its `data`. -/
abbrev Pointer := Option Nat

/-- The operator `--` on `std::size_t`: at 0 it wraps around.  Increments are
left unbounded: a count never exceeds the number of handle objects alive
(`reachable_count_le`), and `2 ^ 64` of them do not fit in a 64-bit address
space. -/
def pre_decrement (c : Nat) : Nat :=
  if c = 0 then 2 ^ 64 - 1 else c - 1

/-- Upper bound on the number of handle destructions one `delete` can
trigger: one per object plus one per stored operand. -/
def Store.weight (s : Store) : Nat :=
  (s.map fun (o : Object) => o.operands.length + 1).sum

/-- The body of `~Expression`, `if (data && --(data->reference_count) == 0)
delete data;`, run for every handle in `pending` (first to last).  `delete`
runs the destructor of the node object, which destroys the handles of its
`operands` vector: they are put in front of `pending`.  Touching an address
that holds no object, or a deleted object, is undefined behaviour: `none`.
The first argument bounds the number of handle destructions. -/
def release : Nat → List Pointer → Store → Option Store
  | _, [], s => some s
  | 0, _ :: _, _ => none
  | fuel + 1, none :: pending, s => release fuel pending s
  | fuel + 1, some p :: pending, s =>
    match s[p]? with
    | none => none
    | some o =>
      if o.deleted then none
      else if pre_decrement o.reference_count = 0 then
        release fuel (o.operands ++ pending)
          (s.set p { o with reference_count := 0, operands := [], deleted := true })
      else
        release fuel pending
          (s.set p { o with reference_count := pre_decrement o.reference_count })

namespace Expression

/-- The default constructor `Expression()`: `data` is `nullptr`. -/
def default : Pointer := none

/-- The copy constructor `Expression(const Expression&)`: the new handle has
the same `data`; when it is not `nullptr` the count of the object is
incremented. -/
def copy (data : Pointer) (s : Store) : Option (Pointer × Store) :=
  match data with
  | none => some (none, s)
  | some p =>
    match s[p]? with
    | none => none
    | some o =>
      if o.deleted then none
      else some (some p, s.set p { o with reference_count := o.reference_count + 1 })

/-- The destructor `~Expression()` of a handle. -/
def destroy (data : Pointer) (s : Store) : Option Store :=
  release (s.weight + 1) [data] s

/-- The member `swap(Expression& e)`: exchanges the two `data` members.
The result is (`data` of `*this`, `data` of `e`). -/
def swap (this e : Pointer) : Pointer × Pointer := (e, this)

/-- The assignment `operator=(const Expression& rhs)`: `Expression e { rhs };
swap(e); return *this;` and `e` is destroyed on return.  The result is the new
`data` of `*this`. -/
def assign (this rhs : Pointer) (s : Store) : Option (Pointer × Store) :=
  match copy rhs s with
  | none => none
  | some (e, s1) =>
    let (this1, e1) := swap this e
    match destroy e1 s1 with
    | none => none
    | some s2 => some (this1, s2)

/-- The private member `remake(Expression* e)`: `if (data &&
--(data->reference_count) == 0) delete data; data = e;`.  The result is the
new `data`. -/
def remake (data : Pointer) (e : Nat) (s : Store) : Option (Pointer × Store) :=
  match release (s.weight + 1) [data] s with
  | none => none
  | some s1 => some (some e, s1)

/-- The expression `new T { ... }` up to the end of the base-class
initialiser: a fresh object with `reference_count` 1 and no operands. -/
def allocate (T : NodeType) (s : Store) : Nat × Store :=
  (s.length, s ++ [{ type := T, reference_count := 1, operands := [], deleted := false }])

/-- The factory `make<T>(xs...)`: `Expression e {}; e.remake(new T { xs... });
return e;`.  `body` is the constructor body of `T` run on the fresh object.
`nrvo` says whether the compiler elides the copy of `e` on return; when it
does not, the return value is copy-constructed from `e` and `e` is
destroyed. -/
def make (nrvo : Bool) (T : NodeType) (body : Nat → Store → Option Store) (s : Store) :
    Option (Pointer × Store) :=
  let e : Pointer := default
  let (p, s1) := allocate T s
  match body p s1 with
  | none => none
  | some s2 =>
    match remake e p s2 with
    | none => none
    | some (e1, s3) =>
      if nrvo then some (e1, s3)
      else
        match copy e1 s3 with
        | none => none
        | some (r, s4) =>
          match destroy e1 s4 with
          | none => none
          | some s5 => some (r, s5)

end Expression

/-- The call `operands.push_back(x)` on the `Logical` at address `p`: the new
element is copy-constructed from `x` (the class has no move constructor).  A
reallocation inside `std::vector` copies every element and destroys the
original, which changes no count, and is not represented. -/
def push_back (p : Nat) (x : Pointer) (s : Store) : Option Store :=
  match Expression.copy x s with
  | none => none
  | some (c, s1) =>
    match s1[p]? with
    | none => none
    | some o => some (s1.set p { o with operands := o.operands ++ [c] })

mutual
/-- The function `read` on the store: the `data` of the returned handle and
the store it leaves.  As the value view, this is `read` returning; when the
conversion of the value of `"Type"` throws (`Throwing.read`), the handles built
so far are destroyed while the stack unwinds, which is not represented. -/
def read (nrvo : Bool) : Node → Store → Option (Pointer × Store)
  | .Scalar _, s => some (none, s)
  | .Sequence _, s => some (none, s)
  | .Null, s => some (none, s)
  | .Map entries, s =>
    match h_and : Node.get "All" entries with
    | some node_and =>
      Expression.make nrvo .And (fun p s1 => Logical nrvo p node_and s1) s
    | none =>
      match h_or : Node.get "Any" entries with
      | some node_or =>
        Expression.make nrvo .Or (fun p s1 => Logical nrvo p node_or s1) s
      | none =>
        match Node.get "Type" entries with
        | some _ =>
          match Node.get "Params" entries with
          | some _ => some (none, s)
          | none => Expression.make nrvo .Predicate (fun _ s1 => some s1) s
        | none => some (none, s)
termination_by n => sizeOf n
decreasing_by
  all_goals simp_wf
  · have := Node.get_sizeOf h_and; omega
  · have := Node.get_sizeOf h_or; omega
/-- The body of the constructor `Logical(const YAML::Node& operands_node)` run on
the object at address `p`. -/
def Logical (nrvo : Bool) (p : Nat) : Node → Store → Option Store
  | .Sequence items, s => for_each nrvo p items s
  | _, s => some s
termination_by n => sizeOf n
/-- The loop `for (const auto& each : operands_node)
operands.push_back(read(each));`: the temporary returned by `read` is destroyed
at the end of each statement. -/
def for_each (nrvo : Bool) (p : Nat) : List Node → Store → Option Store
  | [], s => some s
  | each :: rest, s =>
    match read nrvo each s with
    | none => none
    | some (t, s1) =>
      match push_back p t s1 with
      | none => none
      | some s2 =>
        match Expression.destroy t s2 with
        | none => none
        | some s3 => for_each nrvo p rest s3
termination_by items => sizeOf items
end

/-- The constructor body that `make<T>(node)` runs for each node class: the
`Logical` constructor for `And` and `Or`; the constructors of `Predicate` and
`Literal` have an empty body. -/
def constructor (nrvo : Bool) (T : NodeType) (node : Node) (p : Nat) (s : Store) : Option Store :=
  match T with
  | .And => Logical nrvo p node s
  | .Or => Logical nrvo p node s
  | .Predicate => some s
  | .Literal => some s

/-- The client of the header: the store and the `data` of every handle object
the client currently holds. -/
structure State where
  store : Store
  handles : List Pointer
deriving DecidableEq, Repr

/-- The state before any handle exists. -/
def State.empty : State := { store := [], handles := [] }

/-- The public operations on handles.  Handles are named by their position in
`handles`. -/
inductive Op where
  | default
  | make (T : NodeType) (node : Node)
  | copy (i : Nat)
  | assign (i j : Nat)
  | swap (i j : Nat)
  | destroy (i : Nat)

/-- Positions named by an operation exist. -/
def Op.valid (σ : State) : Op → Prop
  | .default => True
  | .make _ _ => True
  | .copy i => i < σ.handles.length
  | .assign i j => i < σ.handles.length ∧ j < σ.handles.length
  | .swap i j => i < σ.handles.length ∧ j < σ.handles.length
  | .destroy i => i < σ.handles.length

/-- One public operation.  `none` is undefined behaviour (a deleted object is
touched) or an operation that names a handle that does not exist. -/
def step (nrvo : Bool) : Op → State → Option State
  | .default, σ => some { σ with handles := σ.handles ++ [Expression.default] }
  | .make T node, σ =>
    match Expression.make nrvo T (constructor nrvo T node) σ.store with
    | none => none
    | some (d, s) => some { store := s, handles := σ.handles ++ [d] }
  | .copy i, σ =>
    match σ.handles[i]? with
    | none => none
    | some x =>
      match Expression.copy x σ.store with
      | none => none
      | some (d, s) => some { store := s, handles := σ.handles ++ [d] }
  | .assign i j, σ =>
    match σ.handles[i]?, σ.handles[j]? with
    | some a, some b =>
      match Expression.assign a b σ.store with
      | none => none
      | some (d, s) => some { store := s, handles := σ.handles.set i d }
    | _, _ => none
  | .swap i j, σ =>
    match σ.handles[i]?, σ.handles[j]? with
    | some a, some b =>
      let (a1, b1) := Expression.swap a b
      some { σ with handles := (σ.handles.set i a1).set j b1 }
    | _, _ => none
  | .destroy i, σ =>
    match σ.handles[i]? with
    | none => none
    | some x =>
      match Expression.destroy x σ.store with
      | none => none
      | some s => some { store := s, handles := σ.handles.eraseIdx i }

/-- A sequence of public operations, first to last. -/
def run (nrvo : Bool) : List Op → State → Option State
  | [], σ => some σ
  | op :: ops, σ =>
    match step nrvo op σ with
    | none => none
    | some σ1 => run nrvo ops σ1

/-- States the client can be in: those reached from the empty state by public
operations. -/
inductive Reachable (nrvo : Bool) : State → Prop where
  | empty : Reachable nrvo State.empty
  | step (op : Op) (σ σ1 : State) : Reachable nrvo σ → step nrvo op σ = some σ1 →
      Reachable nrvo σ1

/-- Number of operand slots in the store whose handle points to `a`. -/
def operandRefs (s : Store) (a : Nat) : Nat :=
  (s.map fun (o : Object) => o.operands.count (some a)).sum

/-- Number of live handles whose `data` points to `a`: the handles in `ext`
(held outside the store) and the operand slots of the objects in the store. -/
def refs (ext : List Pointer) (s : Store) (a : Nat) : Nat :=
  ext.count (some a) + operandRefs s a

/-- The reference-count invariant for a store `s` whose handles outside the
store are `ext`: every pointer is the address of an object; the count stored
in an object is the number of live handles that point to it; an object is
deleted exactly when its count is zero. -/
structure Consistent (ext : List Pointer) (s : Store) : Prop where
  ext_valid : ∀ a, some a ∈ ext → a < s.length
  operands_valid : ∀ (o : Object), o ∈ s → ∀ a, some a ∈ o.operands → a < s.length
  count_eq : ∀ (a : Nat) (o : Object), s[a]? = some o → o.reference_count = refs ext s a
  deleted_iff : ∀ (a : Nat) (o : Object), s[a]? = some o → (o.deleted = true ↔ o.reference_count = 0)

/-- What the invariant proof needs of a constructor body run on the object at
`p`. -/
def BodyConsistent (body : Nat → Store → Option Store) : Prop :=
  ∀ (ext : List Pointer) (p : Nat) (s : Store), Consistent ext s → p < s.length →
    ∃ s1, body p s = some s1 ∧ Consistent ext s1 ∧ s.length ≤ s1.length

/-- What the invariant proof needs of `read`. -/
def ReadConsistent (nrvo : Bool) (n : Node) : Prop :=
  ∀ (ext : List Pointer) (s : Store), Consistent ext s →
    ∃ d s1, read nrvo n s = some (d, s1) ∧ Consistent (d :: ext) s1 ∧ s.length ≤ s1.length

/-- What `read` leaves of a store: the objects that were there are unchanged
and every object added has a count of 1 and is not deleted. -/
structure Fresh (s s1 : Store) : Prop where
  length_le : s.length ≤ s1.length
  old_eq : ∀ a, a < s.length → s1[a]? = s[a]?
  new_count : ∀ (a : Nat) (o : Object), s.length ≤ a → s1[a]? = some o →
    o.reference_count = 1 ∧ o.deleted = false

/-- The effect of `read` on the store. -/
def ReadFresh (nrvo : Bool) (n : Node) : Prop :=
  ∀ s : Store, ∃ d s1, read nrvo n s = some (d, s1) ∧ Fresh s s1 ∧
    (d = none ∨ (d = some s.length ∧ s.length < s1.length))

/-- The effect of a constructor body, run on the object at `p`, on the store:
it appends operands to the object at `p`, adds objects with a count of 1, and
changes nothing else. -/
def BodyFresh (body : Nat → Store → Option Store) : Prop :=
  ∀ (p : Nat) (s : Store) (o : Object), s[p]? = some o →
    ∃ s1 ops, body p s = some s1 ∧ s.length ≤ s1.length ∧
      (∀ a, a < s.length → a ≠ p → s1[a]? = s[a]?) ∧
      s1[p]? = some { o with operands := o.operands ++ ops } ∧
      (∀ (a : Nat) (o1 : Object), s.length ≤ a → s1[a]? = some o1 →
        o1.reference_count = 1 ∧ o1.deleted = false)

/-- No handle held by the client points to an object that is stored as an
operand of another object. -/
def Separated (handles : List Pointer) (s : Store) : Prop :=
  ∀ a, some a ∈ handles → operandRefs s a = 0

/-- A deleted object holds no operand: its `operands` vector was destroyed. -/
def Cleared (s : Store) : Prop :=
  ∀ (o : Object), o ∈ s → o.deleted = true → o.operands = []

/-- The state a sample client ends in: it builds an `And` over a predicate
call and a scalar, copies the handle, default-constructs a handle, builds an
`Or` over a scalar, builds a `Predicate` and destroys its handle. -/
def sample_state : State :=
  { store := [{ type := .And, reference_count := 2, operands := [some 1, none], deleted := false },
              { type := .Predicate, reference_count := 1, operands := [], deleted := false },
              { type := .Or, reference_count := 1, operands := [], deleted := false },
              { type := .Predicate, reference_count := 0, operands := [], deleted := true }],
    handles := [some 0, some 0, none, some 2] }

/-- The tree a handle stands for in a store: what is reachable from its
`data` through the `operands` vectors, read off down to the given depth. -/
def view : Nat → Store → Pointer → scenario_expression.Expression
  | _, _, none => .null
  | 0, _, some _ => .null
  | fuel + 1, s, some p =>
    match s[p]? with
    | none => .null
    | some o =>
      match o.type with
      | .Literal => .Literal
      | .And => .And (o.operands.map (view fuel s))
      | .Or => .Or (o.operands.map (view fuel s))
      | .Predicate => .Predicate

/-- From address `lo` on, operands only point to objects from `lo` on. -/
def Closed (lo : Nat) (s : Store) : Prop :=
  ∀ (a : Nat) (o : Object), lo ≤ a → s[a]? = some o →
    ∀ b, some b ∈ o.operands → lo ≤ b ∧ b < s.length

/-- The tree that the store-level `read` builds is the value of `read`. -/
def ReadView (nrvo : Bool) (n : Node) : Prop :=
  ∀ (s : Store) (d : Pointer) (s1 : Store), read nrvo n s = some (d, s1) →
    Closed s.length s1 ∧
    ∀ fuel, sizeOf n ≤ fuel → view fuel s1 d = scenario_expression.read n

/-- The operands that the store-level `Logical` constructor appends are the
value of `Logical`. -/
def BodyView (nrvo : Bool) (n : Node) : Prop :=
  ∀ (p : Nat) (s : Store) (o : Object) (s1 : Store), s[p]? = some o →
    Logical nrvo p n s = some s1 →
    ∃ ops, s1[p]? = some { o with operands := o.operands ++ ops } ∧
      (∀ b, some b ∈ ops → s.length ≤ b ∧ b < s1.length) ∧
      Closed s.length s1 ∧
      ∀ fuel, sizeOf n ≤ fuel + 1 → ops.map (view fuel s1) = scenario_expression.Logical n

/-- The condition `data && --(data->reference_count) == 0` that guards
`delete data` in `~Expression` and in `remake`, for a handle with the given
`data`. -/
def Expression.frees (data : Pointer) (s : Store) : Bool :=
  match data with
  | none => false
  | some p =>
    match s[p]? with
    | none => false
    | some o => pre_decrement o.reference_count = 0

/-- The objects reachable from a handle: the object its `data` points to and,
step by step, the objects the operands of a reachable object point to. -/
inductive Reaches (s : Store) : Pointer → Nat → Prop where
  | root (a : Nat) : Reaches s (some a) a
  | operand (d : Pointer) (a b : Nat) (o : Object) :
      Reaches s d a → s[a]? = some o → some b ∈ o.operands → Reaches s d b

end Counted

/-! ## Induction on documents -/

theorem Node.induction {P : Node → Prop} (hNull : P .Null) (hScalar : ∀ t, P (.Scalar t))
    (hSeq : ∀ items, (∀ m ∈ items, P m) → P (.Sequence items))
    (hMap : ∀ entries, (∀ key v, Node.get key entries = some v → P v) → P (.Map entries)) :
    ∀ n, P n := by
  have main : ∀ k n, sizeOf n ≤ k → P n := by
    intro k
    induction k with
    | zero =>
      intro n hn
      cases n <;> simp at hn
    | succ k ih =>
      intro n hn
      cases n with
      | Null => exact hNull
      | Scalar t => exact hScalar t
      | Sequence items =>
        apply hSeq
        intro m hm
        have := List.sizeOf_lt_of_mem hm
        exact ih m (by simp at hn; omega)
      | Map entries =>
        apply hMap
        intro key v hv
        have := Node.get_sizeOf hv
        exact ih v (by simp at hn; omega)
  exact fun n => main (sizeOf n) n (Nat.le_refl _)

namespace Counted

/-! ## Lists of objects -/

theorem sum_map_set {α : Type} (f : α → Nat) :
    ∀ (s : List α) (p : Nat) (o o1 : α), s[p]? = some o →
      ((s.set p o1).map f).sum + f o = (s.map f).sum + f o1 := by
  intro s
  induction s with
  | nil => intro p o o1 h; simp at h
  | cons x xs ih =>
    intro p o o1 h
    cases p with
    | zero =>
      simp only [List.getElem?_cons_zero, Option.some.injEq] at h
      subst h
      simp only [List.set_cons_zero, List.map_cons, List.sum_cons]
      omega
    | succ n =>
      simp only [List.getElem?_cons_succ] at h
      have := ih n o o1 h
      simp only [List.set_cons_succ, List.map_cons, List.sum_cons]
      omega

theorem weight_set (s : Store) (p : Nat) (o o1 : Object) (h : s[p]? = some o) :
    Store.weight (s.set p o1) + o.operands.length = s.weight + o1.operands.length := by
  have := sum_map_set (fun (o : Object) => o.operands.length + 1) s p o o1 h
  simp only [Store.weight] at this ⊢
  omega

theorem operandRefs_set (s : Store) (p : Nat) (o o1 : Object) (a : Nat) (h : s[p]? = some o) :
    operandRefs (s.set p o1) a + o.operands.count (some a)
      = operandRefs s a + o1.operands.count (some a) :=
  sum_map_set (fun (o : Object) => o.operands.count (some a)) s p o o1 h

theorem operandRefs_append (s t : Store) (a : Nat) :
    operandRefs (s ++ t) a = operandRefs s a + operandRefs t a := by
  simp [operandRefs]

theorem count_some_cons_none (a : Nat) (l : List Pointer) :
    (none :: l).count (some a) = l.count (some a) := by
  simp [List.count_cons]

theorem count_some_cons_some (a p : Nat) (l : List Pointer) :
    (some p :: l).count (some a) = l.count (some a) + if p = a then 1 else 0 := by
  simp [List.count_cons]

/-- The invariant only looks at how often each address occurs in `ext`. -/
theorem Consistent.congr {ext ext1 : List Pointer} {s : Store} (h : Consistent ext s)
    (hc : ∀ a, ext1.count (some a) = ext.count (some a)) : Consistent ext1 s := by
  refine ⟨?_, h.operands_valid, ?_, h.deleted_iff⟩
  · intro a ha
    apply h.ext_valid
    rw [← List.count_pos_iff] at ha ⊢
    rw [← hc a]; exact ha
  · intro a o hao
    rw [h.count_eq a o hao]
    simp [refs, hc]

/-- Running the destructor body on the handles `pending`, which the invariant
counts among the live handles, succeeds, removes them from the live handles
and keeps the invariant. -/
theorem release_consistent : ∀ (fuel : Nat) (pending ext : List Pointer) (s : Store),
    Consistent (pending ++ ext) s → pending.length + s.weight ≤ fuel →
    ∃ s1, release fuel pending s = some s1 ∧ Consistent ext s1 ∧ s1.length = s.length := by
  intro fuel
  induction fuel with
  | zero =>
    intro pending ext s h hf
    cases pending with
    | nil => exact ⟨s, by simp [release], by simpa using h, rfl⟩
    | cons x xs => simp at hf
  | succ fuel ih =>
    intro pending ext s h hf
    cases pending with
    | nil => exact ⟨s, by simp [release], by simpa using h, rfl⟩
    | cons x xs =>
      cases x with
      | none =>
        have h1 : Consistent (xs ++ ext) s :=
          h.congr (fun a => by simp [List.count_cons])
        obtain ⟨s1, e1, c1, l1⟩ := ih xs ext s h1 (by simp at hf; omega)
        exact ⟨s1, by simpa [release] using e1, c1, l1⟩
      | some p =>
        have hp : p < s.length := h.ext_valid p (by simp)
        obtain ⟨o, ho⟩ : ∃ o, s[p]? = some o := ⟨s[p], List.getElem?_eq_getElem hp⟩
        have hcnt := h.count_eq p o ho
        have hpos : 1 ≤ o.reference_count := by
          rw [hcnt]; simp [refs, List.count_cons]; omega
        have hdel : o.deleted = false := by
          cases hd : o.deleted with
          | false => rfl
          | true => have := (h.deleted_iff p o ho).1 hd; omega
        have hdec : pre_decrement o.reference_count = o.reference_count - 1 := by
          simp [pre_decrement]; omega
        by_cases hz : o.reference_count - 1 = 0
        · -- the count reaches zero: the object is deleted and its operands destroyed
          have hone : o.reference_count = 1 := by omega
          have hrefs0 : (xs ++ ext).count (some p) + operandRefs s p = 0 := by
            have := hcnt
            simp only [refs, List.cons_append, count_some_cons_some, if_pos] at this
            omega
          obtain ⟨o1, ho1⟩ : ∃ o1 : Object,
            o1 = { o with reference_count := 0, operands := [], deleted := true } := ⟨_, rfl⟩
          have ho1ops : o1.operands = [] := by rw [ho1]
          have ho1cnt : o1.reference_count = 0 := by rw [ho1]
          have ho1del : o1.deleted = true := by rw [ho1]
          have hw := weight_set s p o o1 ho
          have hcons : Consistent ((o.operands ++ xs) ++ ext) (s.set p o1) := by
            refine ⟨?_, ?_, ?_, ?_⟩
            · intro a ha
              rw [List.length_set]
              simp only [List.mem_append] at ha
              rcases ha with (ha | ha) | ha
              · exact h.operands_valid o (List.getElem?_mem ho) a ha
              · exact h.ext_valid a (by simp [ha])
              · exact h.ext_valid a (by simp [ha])
            · intro o2 ho2 a ha
              rw [List.length_set]
              rcases List.mem_or_eq_of_mem_set ho2 with hm | hm
              · exact h.operands_valid o2 hm a ha
              · subst hm; simp [ho1ops] at ha
            · intro a o2 hao
              have hor := operandRefs_set s p o o1 a ho
              rw [ho1ops] at hor
              by_cases hap : p = a
              · subst hap
                rw [List.getElem?_set_self hp] at hao
                cases hao
                simp only [refs, List.count_append, List.count_nil] at hor hrefs0 ⊢
                omega
              · rw [List.getElem?_set_ne hap] at hao
                have := h.count_eq a o2 hao
                simp only [refs, List.count_append, List.cons_append, count_some_cons_some,
                  if_neg hap, List.count_nil] at this hor ⊢
                omega
            · intro a o2 hao
              by_cases hap : p = a
              · subst hap
                rw [List.getElem?_set_self hp] at hao
                cases hao
                simp [ho1cnt, ho1del]
              · rw [List.getElem?_set_ne hap] at hao
                exact h.deleted_iff a o2 hao
          obtain ⟨s1, e1, c1, l1⟩ := ih (o.operands ++ xs) ext (s.set p o1) hcons (by
            rw [ho1ops] at hw
            simp only [List.length_cons, List.length_append, List.length_nil] at hf hw ⊢
            omega)
          refine ⟨s1, ?_, c1, by rw [l1, List.length_set]⟩
          simp only [release, ho, hdel, hdec, hz]
          rw [ho1] at e1
          simpa using e1
        · obtain ⟨o1, ho1⟩ : ∃ o1 : Object,
            o1 = { o with reference_count := pre_decrement o.reference_count } := ⟨_, rfl⟩
          have ho1ops : o1.operands = o.operands := by rw [ho1]
          have ho1cnt : o1.reference_count = o.reference_count - 1 := by rw [ho1, ← hdec]
          have ho1del : o1.deleted = false := by rw [ho1]; exact hdel
          have hw := weight_set s p o o1 ho
          have hcons : Consistent (xs ++ ext) (s.set p o1) := by
            refine ⟨?_, ?_, ?_, ?_⟩
            · intro a ha
              rw [List.length_set]
              exact h.ext_valid a (by simp at ha ⊢; tauto)
            · intro o2 ho2 a ha
              rw [List.length_set]
              rcases List.mem_or_eq_of_mem_set ho2 with hm | hm
              · exact h.operands_valid o2 hm a ha
              · subst hm
                exact h.operands_valid o (List.getElem?_mem ho) a (by rw [← ho1ops]; exact ha)
            · intro a o2 hao
              have hor := operandRefs_set s p o o1 a ho
              rw [ho1ops] at hor
              by_cases hap : p = a
              · subst hap
                rw [List.getElem?_set_self hp] at hao
                cases hao
                simp only [refs, List.count_append, List.cons_append, count_some_cons_some,
                  if_true] at hcnt ⊢
                omega
              · rw [List.getElem?_set_ne hap] at hao
                have := h.count_eq a o2 hao
                simp only [refs, List.count_append, List.cons_append, count_some_cons_some,
                  if_neg hap] at this ⊢
                omega
            · intro a o2 hao
              by_cases hap : p = a
              · subst hap
                rw [List.getElem?_set_self hp] at hao
                cases hao
                simp [ho1cnt, ho1del, hz]
              · rw [List.getElem?_set_ne hap] at hao
                exact h.deleted_iff a o2 hao
          obtain ⟨s1, e1, c1, l1⟩ := ih xs ext (s.set p o1) hcons (by
            rw [ho1ops] at hw
            simp only [List.length_cons] at hf ⊢
            omega)
          refine ⟨s1, ?_, c1, by rw [l1, List.length_set]⟩
          simp only [release, ho, hdel, hdec, hz]
          rw [ho1, hdec] at e1
          simpa [hdel] using e1

theorem release_nil (fuel : Nat) (s : Store) : release fuel [] s = some s := by
  cases fuel <;> rfl

theorem release_null (fuel : Nat) (s : Store) : release (fuel + 1) [none] s = some s := by
  simp [release, release_nil]

/-- Destroying a handle to an object that other handles still share only
decrements the count. -/
theorem release_shared (fuel : Nat) (s : Store) (p : Nat) (o : Object) (ho : s[p]? = some o)
    (hd : o.deleted = false) (hc : 2 ≤ o.reference_count) :
    release (fuel + 1) [some p] s
      = some (s.set p { o with reference_count := o.reference_count - 1 }) := by
  have hdec : pre_decrement o.reference_count = o.reference_count - 1 := by
    simp [pre_decrement]; omega
  have hz : ¬ (o.reference_count - 1 = 0) := by omega
  simp [release, ho, hd, hdec, hz, release_nil]

theorem Consistent.live {ext : List Pointer} {s : Store} (h : Consistent ext s) {p : Nat}
    (hp : some p ∈ ext) : ∃ o, s[p]? = some o ∧ o.deleted = false ∧ 1 ≤ o.reference_count := by
  have hlt := h.ext_valid p hp
  refine ⟨s[p], List.getElem?_eq_getElem hlt, ?_⟩
  have hcnt := h.count_eq p s[p] (List.getElem?_eq_getElem hlt)
  have hpos : 1 ≤ (s[p]).reference_count := by
    rw [hcnt]
    have := List.count_pos_iff.2 hp
    simp only [refs]; omega
  refine ⟨?_, hpos⟩
  cases hd : (s[p]).deleted with
  | false => rfl
  | true => have := (h.deleted_iff p s[p] (List.getElem?_eq_getElem hlt)).1 hd; omega

/-- Copying a live handle succeeds, yields the same pointer, and keeps the
invariant with the copy among the live handles. -/
theorem copy_consistent {ext : List Pointer} {s : Store} (h : Consistent ext s) (d : Pointer)
    (hd : d ∈ ext) :
    ∃ s1, Expression.copy d s = some (d, s1) ∧ Consistent (d :: ext) s1 ∧ s1.length = s.length := by
  cases d with
  | none =>
    exact ⟨s, rfl, h.congr (fun a => by simp [List.count_cons]), rfl⟩
  | some p =>
    obtain ⟨o, ho, hdel, hpos⟩ := h.live hd
    have hp : p < s.length := h.ext_valid p hd
    obtain ⟨o1, ho1⟩ : ∃ o1 : Object,
      o1 = { o with reference_count := o.reference_count + 1 } := ⟨_, rfl⟩
    have ho1ops : o1.operands = o.operands := by rw [ho1]
    have ho1cnt : o1.reference_count = o.reference_count + 1 := by rw [ho1]
    have ho1del : o1.deleted = false := by rw [ho1]; exact hdel
    refine ⟨s.set p o1, ?_, ?_, List.length_set _ _ _⟩
    · simp [Expression.copy, ho, hdel, ho1]
    · refine ⟨?_, ?_, ?_, ?_⟩
      · intro a ha
        rw [List.length_set]
        simp only [List.mem_cons, Option.some.injEq] at ha
        rcases ha with ha | ha
        · subst ha; exact hp
        · exact h.ext_valid a ha
      · intro o2 ho2 a ha
        rw [List.length_set]
        rcases List.mem_or_eq_of_mem_set ho2 with hm | hm
        · exact h.operands_valid o2 hm a ha
        · subst hm
          exact h.operands_valid o (List.getElem?_mem ho) a (by rw [← ho1ops]; exact ha)
      · intro a o2 hao
        have hor := operandRefs_set s p o o1 a ho
        rw [ho1ops] at hor
        by_cases hap : p = a
        · subst hap
          rw [List.getElem?_set_self hp] at hao
          cases hao
          have := h.count_eq p o ho
          simp only [refs, count_some_cons_some, if_pos] at this ⊢
          omega
        · rw [List.getElem?_set_ne hap] at hao
          have := h.count_eq a o2 hao
          simp only [refs, count_some_cons_some, if_neg hap] at this ⊢
          omega
      · intro a o2 hao
        by_cases hap : p = a
        · subst hap
          rw [List.getElem?_set_self hp] at hao
          cases hao
          simp [ho1cnt, ho1del]
        · rw [List.getElem?_set_ne hap] at hao
          exact h.deleted_iff a o2 hao

/-- Destroying one of the live handles succeeds and keeps the invariant for
the remaining ones. -/
theorem destroy_consistent {ext : List Pointer} {s : Store} (d : Pointer)
    (h : Consistent (d :: ext) s) :
    ∃ s1, Expression.destroy d s = some s1 ∧ Consistent ext s1 ∧ s1.length = s.length :=
  release_consistent (s.weight + 1) [d] ext s h (by simp; omega)

theorem operandRefs_singleton (o : Object) (a : Nat) :
    operandRefs [o] a = o.operands.count (some a) := by
  simp [operandRefs]

/-- A freshly allocated object, owned by the raw pointer that `new` returns,
keeps the invariant. -/
theorem allocate_consistent {ext : List Pointer} {s : Store} (h : Consistent ext s)
    (T : NodeType) :
    Consistent (some (Expression.allocate T s).1 :: ext) (Expression.allocate T s).2 := by
  simp only [Expression.allocate]
  refine ⟨?_, ?_, ?_, ?_⟩
  · intro a ha
    simp only [List.mem_cons, Option.some.injEq] at ha
    simp only [List.length_append, List.length_singleton]
    rcases ha with ha | ha
    · omega
    · have := h.ext_valid a ha; omega
  · intro o ho a ha
    simp only [List.length_append, List.length_singleton]
    simp only [List.mem_append, List.mem_singleton] at ho
    rcases ho with ho | ho
    · have := h.operands_valid o ho a ha; omega
    · subst ho; simp at ha
  · intro a o hao
    simp only [refs, operandRefs_append, operandRefs_singleton, List.count_nil,
      count_some_cons_some]
    by_cases hlt : a < s.length
    · rw [List.getElem?_append_left hlt] at hao
      have := h.count_eq a o hao
      simp only [refs] at this
      have hne : ¬ (s.length = a) := by omega
      simp only [if_neg hne]
      omega
    · rw [List.getElem?_append_right (by omega)] at hao
      have hz : a - s.length = 0 := by
        by_contra hne
        rw [List.getElem?_eq_none (by simp; omega)] at hao
        cases hao
      rw [hz] at hao
      simp only [List.getElem?_cons_zero, Option.some.injEq] at hao
      subst hao
      have hae : s.length = a := by omega
      have h0 : ext.count (some a) = 0 := by
        rw [List.count_eq_zero]
        intro hm
        have := h.ext_valid a hm
        omega
      have h1 : operandRefs s a = 0 := by
        simp only [operandRefs]
        rw [List.sum_eq_zero_iff]
        intro x hx
        simp only [List.mem_map] at hx
        obtain ⟨o, ho, rfl⟩ := hx
        rw [List.count_eq_zero]
        intro hm
        have := h.operands_valid o ho a hm
        omega
      simp only [if_pos hae, h0, h1]
  · intro a o hao
    by_cases hlt : a < s.length
    · rw [List.getElem?_append_left hlt] at hao
      exact h.deleted_iff a o hao
    · rw [List.getElem?_append_right (by omega)] at hao
      have hz : a - s.length = 0 := by
        by_contra hne
        rw [List.getElem?_eq_none (by simp; omega)] at hao
        cases hao
      rw [hz] at hao
      simp only [List.getElem?_cons_zero, Option.some.injEq] at hao
      subst hao
      simp

/-- Storing a live handle in the `operands` of an object moves it from the
handles outside the store to the operand slots. -/
theorem adopt_consistent {ext : List Pointer} {s : Store} (x : Pointer) (p : Nat) (o : Object)
    (h : Consistent (x :: ext) s) (ho : s[p]? = some o) :
    Consistent ext (s.set p { o with operands := o.operands ++ [x] }) := by
  have hp : p < s.length := (List.getElem?_eq_some.1 ho).1
  obtain ⟨o1, ho1⟩ : ∃ o1 : Object, o1 = { o with operands := o.operands ++ [x] } := ⟨_, rfl⟩
  have ho1ops : o1.operands = o.operands ++ [x] := by rw [ho1]
  have ho1cnt : o1.reference_count = o.reference_count := by rw [ho1]
  have ho1del : o1.deleted = o.deleted := by rw [ho1]
  rw [← ho1]
  refine ⟨?_, ?_, ?_, ?_⟩
  · intro a ha
    rw [List.length_set]
    exact h.ext_valid a (by simp [ha])
  · intro o2 ho2 a ha
    rw [List.length_set]
    rcases List.mem_or_eq_of_mem_set ho2 with hm | hm
    · exact h.operands_valid o2 hm a ha
    · subst hm
      rw [ho1ops] at ha
      simp only [List.mem_append, List.mem_singleton] at ha
      rcases ha with ha | ha
      · exact h.operands_valid o (List.getElem?_mem ho) a ha
      · exact h.ext_valid a (by simp [ha])
  · intro a o2 hao
    have hor := operandRefs_set s p o o1 a ho
    rw [ho1ops, List.count_append, List.count_singleton] at hor
    have key : refs ext (s.set p o1) a = refs (x :: ext) s a := by
      simp only [refs, List.count_cons]
      omega
    rw [key]
    by_cases hap : p = a
    · subst hap
      rw [List.getElem?_set_self hp] at hao
      cases hao
      rw [ho1cnt]
      exact h.count_eq p o ho
    · rw [List.getElem?_set_ne hap] at hao
      exact h.count_eq a o2 hao
  · intro a o2 hao
    by_cases hap : p = a
    · subst hap
      rw [List.getElem?_set_self hp] at hao
      cases hao
      rw [ho1cnt, ho1del]
      exact h.deleted_iff p o ho
    · rw [List.getElem?_set_ne hap] at hao
      exact h.deleted_iff a o2 hao

theorem push_back_consistent {ext : List Pointer} {s : Store} (x : Pointer) (p : Nat)
    (h : Consistent (x :: ext) s) (hp : p < s.length) :
    ∃ s1, push_back p x s = some s1 ∧ Consistent (x :: ext) s1 ∧ s1.length = s.length := by
  obtain ⟨s1, e1, c1, l1⟩ := copy_consistent h x (by simp)
  obtain ⟨o, ho⟩ : ∃ o, s1[p]? = some o := ⟨s1[p], List.getElem?_eq_getElem (by omega)⟩
  refine ⟨_, ?_, adopt_consistent x p o c1 ho, ?_⟩
  · simp [push_back, e1, ho]
  · rw [List.length_set, l1]

theorem make_consistent (nrvo : Bool) (T : NodeType) (body : Nat → Store → Option Store)
    (hb : BodyConsistent body) {ext : List Pointer} {s : Store} (h : Consistent ext s) :
    ∃ d s1, Expression.make nrvo T body s = some (d, s1) ∧ Consistent (d :: ext) s1
      ∧ s.length ≤ s1.length := by
  have ha := allocate_consistent h T
  obtain ⟨s2, e2, c2, l2⟩ := hb _ (Expression.allocate T s).1 (Expression.allocate T s).2 ha
    (by simp [Expression.allocate])
  have hl : s.length ≤ s2.length := by
    simp [Expression.allocate] at l2; omega
  cases nrvo with
  | true =>
    refine ⟨some s.length, s2, ?_, c2, hl⟩
    simp only [Expression.allocate] at e2
    simp [Expression.make, Expression.allocate, e2, Expression.remake, Expression.default,
      release_null]
  | false =>
    simp only [Expression.allocate] at e2 c2
    obtain ⟨s4, e4, c4, l4⟩ := copy_consistent c2 (some s.length) (by simp)
    obtain ⟨s5, e5, c5, l5⟩ := destroy_consistent (some s.length) c4
    refine ⟨some s.length, s5, ?_, c5, by omega⟩
    simp [Expression.make, Expression.allocate, e2, Expression.remake, Expression.default,
      release_null, e4, e5]

theorem for_each_consistent (nrvo : Bool) (items : List Node)
    (hr : ∀ m ∈ items, ReadConsistent nrvo m) :
    BodyConsistent (fun p s => for_each nrvo p items s) := by
  induction items with
  | nil =>
    intro ext p s h hp
    exact ⟨s, by simp [for_each], h, Nat.le_refl _⟩
  | cons each rest ih =>
    intro ext p s h hp
    obtain ⟨t, s1, e1, c1, l1⟩ := hr each (by simp) ext s h
    obtain ⟨s2, e2, c2, l2⟩ := push_back_consistent t p c1 (by omega)
    obtain ⟨s3, e3, c3, l3⟩ := destroy_consistent t c2
    obtain ⟨s4, e4, c4, l4⟩ := ih (fun m hm => hr m (by simp [hm])) ext p s3 c3 (by omega)
    refine ⟨s4, ?_, c4, by omega⟩
    simp only [for_each, e1, e2, e3]
    exact e4

theorem Logical_consistent (nrvo : Bool) (n : Node)
    (hr : ∀ items, n = .Sequence items → ∀ m ∈ items, ReadConsistent nrvo m) :
    BodyConsistent (fun p s => Logical nrvo p n s) := by
  cases n with
  | Sequence items =>
    have := for_each_consistent nrvo items (hr items rfl)
    intro ext p s h hp
    obtain ⟨s1, e1, r⟩ := this ext p s h hp
    exact ⟨s1, by simpa [Logical] using e1, r⟩
  | Null => intro ext p s h hp; exact ⟨s, by simp [Logical], h, Nat.le_refl _⟩
  | Scalar t => intro ext p s h hp; exact ⟨s, by simp [Logical], h, Nat.le_refl _⟩
  | Map entries => intro ext p s h hp; exact ⟨s, by simp [Logical], h, Nat.le_refl _⟩

theorem Consistent.cons_none {ext : List Pointer} {s : Store} (h : Consistent ext s) :
    Consistent (none :: ext) s :=
  h.congr (fun a => by simp [List.count_cons])

theorem read_Logical_consistent (nrvo : Bool) :
    ∀ n, ReadConsistent nrvo n ∧ BodyConsistent (fun p s => Logical nrvo p n s) := by
  apply Node.induction
  · exact ⟨fun ext s h => ⟨none, s, by simp [read], h.cons_none, Nat.le_refl _⟩,
      Logical_consistent nrvo _ (by intro items h; cases h)⟩
  · intro t
    exact ⟨fun ext s h => ⟨none, s, by simp [read], h.cons_none, Nat.le_refl _⟩,
      Logical_consistent nrvo _ (by intro items h; cases h)⟩
  · intro items ih
    refine ⟨fun ext s h => ⟨none, s, by simp [read], h.cons_none, Nat.le_refl _⟩,
      Logical_consistent nrvo _ ?_⟩
    intro items1 h m hm
    cases h
    exact (ih m hm).1
  · intro entries ih
    refine ⟨?_, Logical_consistent nrvo _ (by intro items h; cases h)⟩
    intro ext s h
    rw [read]
    split
    · rename_i node_and h_and
      exact make_consistent nrvo .And _ (ih "All" node_and h_and).2 h
    · split
      · rename_i node_or h_or
        exact make_consistent nrvo .Or _ (ih "Any" node_or h_or).2 h
      · split
        · split
          · exact ⟨none, s, rfl, h.cons_none, Nat.le_refl _⟩
          · exact make_consistent nrvo .Predicate _
              (fun ext p s h hp => ⟨s, rfl, h, Nat.le_refl _⟩) h
        · exact ⟨none, s, rfl, h.cons_none, Nat.le_refl _⟩

theorem read_consistent (nrvo : Bool) (n : Node) : ReadConsistent nrvo n :=
  (read_Logical_consistent nrvo n).1

theorem constructor_consistent (nrvo : Bool) (T : NodeType) (node : Node) :
    BodyConsistent (constructor nrvo T node) := by
  cases T with
  | And => exact (read_Logical_consistent nrvo node).2
  | Or => exact (read_Logical_consistent nrvo node).2
  | Predicate => exact fun ext p s h hp => ⟨s, rfl, h, Nat.le_refl _⟩
  | Literal => exact fun ext p s h hp => ⟨s, rfl, h, Nat.le_refl _⟩

theorem count_set_get (l : List Pointer) :
    ∀ (i : Nat) (a b x : Pointer), l[i]? = some a →
      (l.set i b).count x + (if a = x then 1 else 0) = l.count x + (if b = x then 1 else 0) := by
  induction l with
  | nil => intro i a b x h; simp at h
  | cons y ys ih =>
    intro i a b x h
    cases i with
    | zero =>
      simp only [List.getElem?_cons_zero, Option.some.injEq] at h
      subst h
      simp only [List.set_cons_zero, List.count_cons, beq_iff_eq]
      omega
    | succ n =>
      simp only [List.getElem?_cons_succ] at h
      have := ih n a b x h
      simp only [List.set_cons_succ, List.count_cons, beq_iff_eq]
      omega

theorem count_eraseIdx_get (l : List Pointer) :
    ∀ (i : Nat) (a x : Pointer), l[i]? = some a →
      (l.eraseIdx i).count x + (if a = x then 1 else 0) = l.count x := by
  induction l with
  | nil => intro i a x h; simp at h
  | cons y ys ih =>
    intro i a x h
    cases i with
    | zero =>
      simp only [List.getElem?_cons_zero, Option.some.injEq] at h
      subst h
      simp only [List.eraseIdx_cons_zero, List.count_cons, beq_iff_eq]
    | succ n =>
      simp only [List.getElem?_cons_succ] at h
      have := ih n a x h
      simp only [List.eraseIdx_cons_succ, List.count_cons, beq_iff_eq]
      omega

theorem step_valid {nrvo : Bool} {op : Op} {σ σ1 : State} (h : step nrvo op σ = some σ1) :
    op.valid σ := by
  cases op with
  | default => trivial
  | make T node => trivial
  | copy i =>
    simp only [Op.valid]
    by_contra hlt
    simp [step, List.getElem?_eq_none (Nat.le_of_not_lt hlt)] at h
  | assign i j =>
    simp only [Op.valid]
    by_contra hlt
    rcases Nat.lt_or_ge i σ.handles.length with hi | hi
    · rcases Nat.lt_or_ge j σ.handles.length with hj | hj
      · exact hlt ⟨hi, hj⟩
      · simp [step, List.getElem?_eq_none hj] at h
    · simp [step, List.getElem?_eq_none hi] at h
  | swap i j =>
    simp only [Op.valid]
    by_contra hlt
    rcases Nat.lt_or_ge i σ.handles.length with hi | hi
    · rcases Nat.lt_or_ge j σ.handles.length with hj | hj
      · exact hlt ⟨hi, hj⟩
      · simp [step, List.getElem?_eq_none hj] at h
    · simp [step, List.getElem?_eq_none hi] at h
  | destroy i =>
    simp only [Op.valid]
    by_contra hlt
    simp [step, List.getElem?_eq_none (Nat.le_of_not_lt hlt)] at h

/-- Every public operation that names existing handles succeeds and keeps the
reference-count invariant. -/
theorem step_consistent (nrvo : Bool) (op : Op) (σ : State)
    (h : Consistent σ.handles σ.store) (hv : op.valid σ) :
    ∃ σ1, step nrvo op σ = some σ1 ∧ Consistent σ1.handles σ1.store := by
  cases op with
  | default =>
    exact ⟨_, rfl, h.congr (fun a => by simp [Expression.default, List.count_append])⟩
  | make T node =>
    obtain ⟨d, s1, e1, c1, _⟩ :=
      make_consistent nrvo T _ (constructor_consistent nrvo T node) h
    refine ⟨⟨s1, σ.handles ++ [d]⟩, by simp [step, e1], ?_⟩
    exact c1.congr (fun a => by simp [List.count_append, List.count_cons])
  | copy i =>
    simp only [Op.valid] at hv
    have hx : σ.handles[i]? = some σ.handles[i] := List.getElem?_eq_getElem hv
    obtain ⟨s1, e1, c1, _⟩ := copy_consistent h σ.handles[i] (List.getElem_mem hv)
    refine ⟨⟨s1, σ.handles ++ [σ.handles[i]]⟩, by simp [step, hx, e1], ?_⟩
    exact c1.congr (fun a => by simp [List.count_append, List.count_cons])
  | assign i j =>
    simp only [Op.valid] at hv
    have hx : σ.handles[i]? = some σ.handles[i] := List.getElem?_eq_getElem hv.1
    have hy : σ.handles[j]? = some σ.handles[j] := List.getElem?_eq_getElem hv.2
    obtain ⟨s1, e1, c1, _⟩ := copy_consistent h σ.handles[j] (List.getElem_mem hv.2)
    have c1a : Consistent (σ.handles[i] :: σ.handles.set i σ.handles[j]) s1 := by
      apply c1.congr
      intro a
      have := count_set_get σ.handles i σ.handles[i] σ.handles[j] (some a) hx
      simp only [List.count_cons, beq_iff_eq]
      omega
    obtain ⟨s2, e2, c2, _⟩ := destroy_consistent _ c1a
    exact ⟨⟨s2, σ.handles.set i σ.handles[j]⟩,
      by simp [step, hx, hy, Expression.assign, e1, Expression.swap, e2], c2⟩
  | swap i j =>
    simp only [Op.valid] at hv
    have hx : σ.handles[i]? = some σ.handles[i] := List.getElem?_eq_getElem hv.1
    have hy : σ.handles[j]? = some σ.handles[j] := List.getElem?_eq_getElem hv.2
    refine ⟨⟨σ.store, (σ.handles.set i σ.handles[j]).set j σ.handles[i]⟩,
      by simp [step, hx, hy, Expression.swap], ?_⟩
    apply h.congr
    intro a
    have h1 := count_set_get σ.handles i σ.handles[i] σ.handles[j] (some a) hx
    have hj2 : (σ.handles.set i σ.handles[j])[j]? = some σ.handles[j] := by
      rw [List.getElem?_set]
      split
      · rename_i hij
        subst hij
        simp [hv.1]
      · exact hy
    have h2 := count_set_get (σ.handles.set i σ.handles[j]) j σ.handles[j] σ.handles[i]
      (some a) hj2
    show ((σ.handles.set i σ.handles[j]).set j σ.handles[i]).count (some a) = _
    omega
  | destroy i =>
    simp only [Op.valid] at hv
    have hx : σ.handles[i]? = some σ.handles[i] := List.getElem?_eq_getElem hv
    have c0 : Consistent (σ.handles[i] :: σ.handles.eraseIdx i) σ.store := by
      apply h.congr
      intro a
      have := count_eraseIdx_get σ.handles i σ.handles[i] (some a) hx
      simp only [List.count_cons, beq_iff_eq]
      omega
    obtain ⟨s1, e1, c1, _⟩ := destroy_consistent _ c0
    exact ⟨⟨s1, σ.handles.eraseIdx i⟩, by simp [step, hx, e1], c1⟩

theorem Consistent.empty : Consistent State.empty.handles State.empty.store := by
  refine ⟨?_, ?_, ?_, ?_⟩ <;> simp [State.empty]

theorem reachable_consistent {nrvo : Bool} {σ : State} (h : Reachable nrvo σ) :
    Consistent σ.handles σ.store := by
  induction h with
  | empty => exact Consistent.empty
  | step op σ σ1 _ hs ih =>
    obtain ⟨σ2, e2, c2⟩ := step_consistent nrvo op σ ih (step_valid hs)
    rw [hs] at e2
    cases e2
    exact c2

theorem set_same (s : Store) (p : Nat) (o : Object) (h : s[p]? = some o) : s.set p o = s := by
  apply List.ext_getElem?
  intro i
  rw [List.getElem?_set]
  split
  · rename_i hpi
    subst hpi
    have hp : p < s.length := (List.getElem?_eq_some.1 h).1
    simp [hp, h]
  · rfl

/-- Copying a handle and destroying the original (or the copy) leaves the
store as it was, provided the object is live with a count of at least 1. -/
theorem copy_destroy (s : Store) (d : Pointer)
    (hd : ∀ q, d = some q → ∃ oq, s[q]? = some oq ∧ 1 ≤ oq.reference_count ∧ oq.deleted = false) :
    ∃ s1, Expression.copy d s = some (d, s1) ∧ Expression.destroy d s1 = some s := by
  cases d with
  | none => exact ⟨s, rfl, by simp [Expression.destroy, release_null]⟩
  | some q =>
    obtain ⟨oq, hq, hc, hdel⟩ := hd q rfl
    have hlt : q < s.length := (List.getElem?_eq_some.1 hq).1
    refine ⟨s.set q { oq with reference_count := oq.reference_count + 1 }, ?_, ?_⟩
    · simp [Expression.copy, hq, hdel]
    · rw [Expression.destroy,
        release_shared _ _ q { oq with reference_count := oq.reference_count + 1 }
          (List.getElem?_set_self hlt) hdel (by simp; omega)]
      simp only [List.set_set, Nat.add_sub_cancel]
      rw [set_same s q _ hq]

/-- The statement `operands.push_back(t)` followed by the destruction of the
temporary `t`, when `t` is empty or the only handle to its object: the handle
moves into the vector and no count changes. -/
theorem push_back_destroy (s : Store) (p : Nat) (o : Object) (t : Pointer) (ho : s[p]? = some o)
    (ht : ∀ q, t = some q → q ≠ p ∧ ∃ oq, s[q]? = some oq ∧ 1 ≤ oq.reference_count
      ∧ oq.deleted = false) :
    ∃ s2, push_back p t s = some s2 ∧
      Expression.destroy t s2 = some (s.set p { o with operands := o.operands ++ [t] }) := by
  cases t with
  | none =>
    refine ⟨s.set p { o with operands := o.operands ++ [none] }, ?_, ?_⟩
    · simp [push_back, Expression.copy, ho]
    · simp [Expression.destroy, release_null]
  | some q =>
    obtain ⟨hqp, oq, hq, hc, hdel⟩ := ht q rfl
    have hlt : q < s.length := (List.getElem?_eq_some.1 hq).1
    have hp1 : (s.set q { oq with reference_count := oq.reference_count + 1 })[p]? = some o := by
      rw [List.getElem?_set_ne hqp]; exact ho
    refine ⟨(s.set q { oq with reference_count := oq.reference_count + 1 }).set p
        { o with operands := o.operands ++ [some q] }, ?_, ?_⟩
    · simp only [push_back, Expression.copy, hq, hdel]
      simp only [Bool.false_eq_true, if_false]
      rw [hdel] at hp1
      simp only [hp1]
    · have hq2 : ((s.set q { oq with reference_count := oq.reference_count + 1 }).set p
          { o with operands := o.operands ++ [some q] })[q]?
          = some { oq with reference_count := oq.reference_count + 1 } := by
        rw [List.getElem?_set_ne (Ne.symm hqp), List.getElem?_set_self hlt]
      rw [Expression.destroy, release_shared _ _ q _ hq2 hdel (by simp; omega)]
      congr 1
      apply List.ext_getElem?
      intro i
      simp only [List.getElem?_set, List.length_set]
      by_cases hqi : q = i
      · subst hqi
        have : ¬ (p = q) := fun h => hqp h.symm
        simp [hlt, this, hq]
      · simp [hqi]

theorem BodyFresh.skip : BodyFresh (fun _ s => some s) := by
  intro p s o ho
  refine ⟨s, [], rfl, Nat.le_refl _, fun a _ _ => rfl, by simpa using ho, ?_⟩
  intro a o1 ha hao
  rw [List.getElem?_eq_none ha] at hao
  cases hao

theorem make_fresh (nrvo : Bool) (T : NodeType) (body : Nat → Store → Option Store)
    (hb : BodyFresh body) (s : Store) :
    ∃ s1 ops, Expression.make nrvo T body s = some (some s.length, s1) ∧ Fresh s s1 ∧
      s1[s.length]? = some { type := T, reference_count := 1, operands := ops, deleted := false }
      := by
  obtain ⟨s2, ops, e2, l2, old2, root2, new2⟩ := hb s.length
    (s ++ [{ type := T, reference_count := 1, operands := [], deleted := false }]) _
    (List.getElem?_concat_length s _)
  simp only [List.length_append, List.length_singleton, List.nil_append] at l2 old2 root2 new2
  have hfresh : Fresh s s2 := by
    refine ⟨by omega, ?_, ?_⟩
    · intro a ha
      rw [old2 a (by omega) (by omega), List.getElem?_append_left ha]
    · intro a o ha hao
      by_cases hap : a = s.length
      · subst hap
        rw [root2] at hao
        cases hao
        exact ⟨rfl, rfl⟩
      · exact new2 a o (by omega) hao
  have hmk : Expression.make true T body s = some (some s.length, s2) := by
    simp [Expression.make, Expression.allocate, e2, Expression.remake, Expression.default,
      release_null]
  cases nrvo with
  | true => exact ⟨s2, ops, hmk, hfresh, root2⟩
  | false =>
    obtain ⟨s4, e4, e5⟩ := copy_destroy s2 (some s.length) (by
      intro q hq
      cases hq
      exact ⟨_, root2, by simp, rfl⟩)
    refine ⟨s2, ops, ?_, hfresh, root2⟩
    simp [Expression.make, Expression.allocate, e2, Expression.remake, Expression.default,
      release_null, e4, e5]

theorem for_each_fresh (nrvo : Bool) (items : List Node) (hr : ∀ m ∈ items, ReadFresh nrvo m) :
    BodyFresh (fun p s => for_each nrvo p items s) := by
  induction items with
  | nil =>
    intro p s o ho
    refine ⟨s, [], by simp [for_each], Nat.le_refl _, fun a _ _ => rfl, by simpa using ho, ?_⟩
    intro a o1 ha hao
    rw [List.getElem?_eq_none ha] at hao
    cases hao
  | cons each rest ih =>
    intro p s o ho
    have hp : p < s.length := (List.getElem?_eq_some.1 ho).1
    obtain ⟨t, s1, e1, f1, ht⟩ := hr each (by simp) s
    have ho1 : s1[p]? = some o := by rw [f1.old_eq p hp]; exact ho
    obtain ⟨s2, e2, e3⟩ := push_back_destroy s1 p o t ho1 (by
      intro q hq
      rcases ht with ht | ⟨ht, hlt⟩
      · rw [ht] at hq; cases hq
      · rw [ht] at hq
        cases hq
        refine ⟨by omega, s1[s.length], List.getElem?_eq_getElem hlt, ?_⟩
        have := f1.new_count s.length _ (Nat.le_refl _) (List.getElem?_eq_getElem hlt)
        exact ⟨by omega, this.2⟩)
    have hp3 : (s1.set p { o with operands := o.operands ++ [t] })[p]?
        = some { o with operands := o.operands ++ [t] } :=
      List.getElem?_set_self (by have := f1.length_le; omega)
    obtain ⟨s4, ops, e4, l4, old4, root4, new4⟩ :=
      ih (fun m hm => hr m (by simp [hm])) p _ _ hp3
    rw [List.length_set] at l4 old4 new4
    have hl1 := f1.length_le
    refine ⟨s4, t :: ops, ?_, by omega, ?_, ?_, ?_⟩
    · simp only [for_each, e1, e2, e3]
      exact e4
    · intro a ha hap
      rw [old4 a (by omega) hap, List.getElem?_set_ne (Ne.symm hap), f1.old_eq a ha]
    · rw [root4]
      simp
    · intro a o1 ha hao
      by_cases hlt : a < s1.length
      · rw [old4 a hlt (by omega), List.getElem?_set_ne (by omega)] at hao
        exact f1.new_count a o1 ha hao
      · exact new4 a o1 (by omega) hao

theorem Logical_fresh (nrvo : Bool) (n : Node)
    (hr : ∀ items, n = .Sequence items → ∀ m ∈ items, ReadFresh nrvo m) :
    BodyFresh (fun p s => Logical nrvo p n s) := by
  cases n with
  | Sequence items =>
    have := for_each_fresh nrvo items (hr items rfl)
    intro p s o ho
    obtain ⟨s1, ops, e1, r⟩ := this p s o ho
    exact ⟨s1, ops, by simpa [Logical] using e1, r⟩
  | Null => simpa [Logical] using BodyFresh.skip
  | Scalar t => simpa [Logical] using BodyFresh.skip
  | Map entries => simpa [Logical] using BodyFresh.skip

theorem Fresh.refl (s : Store) : Fresh s s := by
  refine ⟨Nat.le_refl _, fun _ _ => rfl, ?_⟩
  intro a o ha hao
  rw [List.getElem?_eq_none ha] at hao
  cases hao

theorem read_Logical_fresh (nrvo : Bool) :
    ∀ n, ReadFresh nrvo n ∧ BodyFresh (fun p s => Logical nrvo p n s) := by
  have fail : ∀ (n : Node), (∀ s, read nrvo n s = some (none, s)) → ReadFresh nrvo n :=
    fun n h s => ⟨none, s, h s, Fresh.refl s, Or.inl rfl⟩
  have ofMake : ∀ (T : NodeType) (body : Nat → Store → Option Store) (s : Store),
      BodyFresh body → ∃ d s1, Expression.make nrvo T body s = some (d, s1) ∧ Fresh s s1 ∧
        (d = none ∨ (d = some s.length ∧ s.length < s1.length)) := by
    intro T body s hb
    obtain ⟨s1, ops, e1, f1, r1⟩ := make_fresh nrvo T body hb s
    exact ⟨_, s1, e1, f1, Or.inr ⟨rfl, (List.getElem?_eq_some.1 r1).1⟩⟩
  apply Node.induction
  · exact ⟨fail _ (fun s => by simp [read]), Logical_fresh nrvo _ (by intro items h; cases h)⟩
  · intro t
    exact ⟨fail _ (fun s => by simp [read]), Logical_fresh nrvo _ (by intro items h; cases h)⟩
  · intro items ih
    refine ⟨fail _ (fun s => by simp [read]), Logical_fresh nrvo _ ?_⟩
    intro items1 h m hm
    cases h
    exact (ih m hm).1
  · intro entries ih
    refine ⟨?_, Logical_fresh nrvo _ (by intro items h; cases h)⟩
    intro s
    rw [read]
    split
    · rename_i node_and h_and
      exact ofMake .And _ s (ih "All" node_and h_and).2
    · split
      · rename_i node_or h_or
        exact ofMake .Or _ s (ih "Any" node_or h_or).2
      · split
        · split
          · exact ⟨none, s, rfl, Fresh.refl s, Or.inl rfl⟩
          · exact ofMake .Predicate _ s BodyFresh.skip
        · exact ⟨none, s, rfl, Fresh.refl s, Or.inl rfl⟩

theorem constructor_fresh (nrvo : Bool) (T : NodeType) (node : Node) :
    BodyFresh (constructor nrvo T node) := by
  cases T with
  | And => exact (read_Logical_fresh nrvo node).2
  | Or => exact (read_Logical_fresh nrvo node).2
  | Predicate => exact BodyFresh.skip
  | Literal => exact BodyFresh.skip

theorem operandRefs_eq_zero {s : Store} {a : Nat} (h : operandRefs s a = 0) :
    ∀ o ∈ s, some a ∉ o.operands := by
  intro o ho
  simp only [operandRefs] at h
  rw [List.sum_eq_zero_iff] at h
  have := h (o.operands.count (some a)) (List.mem_map.2 ⟨o, ho, rfl⟩)
  exact List.count_eq_zero.1 this

theorem copy_length {d e : Pointer} {s s1 : Store} (h : Expression.copy d s = some (e, s1)) :
    s1.length = s.length := by
  cases d with
  | none => simp [Expression.copy] at h; rw [← h.2]
  | some p =>
    simp only [Expression.copy] at h
    split at h
    · cases h
    · split at h
      · cases h
      · cases h; simp

theorem copy_operandRefs {d e : Pointer} {s s1 : Store} (h : Expression.copy d s = some (e, s1))
    (a : Nat) : operandRefs s1 a = operandRefs s a := by
  cases d with
  | none => simp [Expression.copy] at h; rw [← h.2]
  | some p =>
    simp only [Expression.copy] at h
    split at h
    · cases h
    · rename_i o ho
      split at h
      · cases h
      · cases h
        have := operandRefs_set s p o { o with reference_count := o.reference_count + 1 } a ho
        simp only at this
        omega

/-- Destroying handles never adds an operand slot. -/
theorem release_operandRefs_le : ∀ (fuel : Nat) (pending : List Pointer) (s s1 : Store),
    release fuel pending s = some s1 → ∀ a, operandRefs s1 a ≤ operandRefs s a := by
  intro fuel
  induction fuel with
  | zero =>
    intro pending s s1 h a
    cases pending with
    | nil => simp [release] at h; rw [h]
    | cons x xs => simp [release] at h
  | succ fuel ih =>
    intro pending s s1 h a
    cases pending with
    | nil => simp [release] at h; rw [h]
    | cons x xs =>
      cases x with
      | none => exact ih xs s s1 (by simpa [release] using h) a
      | some p =>
        simp only [release] at h
        split at h
        · cases h
        · rename_i o ho
          split at h
          · cases h
          · split at h
            · have h1 := ih _ _ _ h a
              have h2 := operandRefs_set s p o
                { o with reference_count := 0, operands := [], deleted := true } a ho
              simp only [List.count_nil] at h2
              omega
            · have h1 := ih _ _ _ h a
              have h2 := operandRefs_set s p o
                { o with reference_count := pre_decrement o.reference_count } a ho
              simp only at h2
              omega

/-- Destroying handles leaves alone every object that none of them points to
and that is not stored as an operand. -/
theorem release_frame : ∀ (fuel : Nat) (pending : List Pointer) (s s1 : Store) (a : Nat),
    release fuel pending s = some s1 → some a ∉ pending → operandRefs s a = 0 →
    s1[a]? = s[a]? := by
  intro fuel
  induction fuel with
  | zero =>
    intro pending s s1 a h _ _
    cases pending with
    | nil => simp [release] at h; rw [h]
    | cons x xs => simp [release] at h
  | succ fuel ih =>
    intro pending s s1 a h hp hz
    cases pending with
    | nil => simp [release] at h; rw [h]
    | cons x xs =>
      cases x with
      | none =>
        exact ih xs s s1 a (by simpa [release] using h) (by simpa using hp) hz
      | some p =>
        have hpa : p ≠ a := by
          intro hpa; subst hpa; simp at hp
        have hxs : some a ∉ xs := by
          intro hm; exact hp (by simp [hm])
        simp only [release] at h
        split at h
        · cases h
        · rename_i o ho
          split at h
          · cases h
          · split at h
            · have h2 := operandRefs_set s p o
                { o with reference_count := 0, operands := [], deleted := true } a ho
              simp only [List.count_nil] at h2
              rw [ih _ _ _ a h ?_ (by omega), List.getElem?_set_ne hpa]
              simp only [List.mem_append, not_or]
              exact ⟨operandRefs_eq_zero hz o (List.getElem?_mem ho), hxs⟩
            · have h2 := operandRefs_set s p o
                { o with reference_count := pre_decrement o.reference_count } a ho
              simp only at h2
              rw [ih _ _ _ a h hxs (by omega), List.getElem?_set_ne hpa]

/-- The effect of destroying a live handle to an object that is not stored as
an operand: its count goes down by one, it is deleted exactly when the count
reaches zero, and no object that is neither it nor an operand changes. -/
theorem destroy_spec {ext : List Pointer} {s : Store} (p : Nat)
    (h : Consistent (some p :: ext) s) (hz : operandRefs s p = 0) :
    ∃ s1 o o1, Expression.destroy (some p) s = some s1 ∧ Consistent ext s1 ∧
      s1.length = s.length ∧ s[p]? = some o ∧ s1[p]? = some o1 ∧
      o.deleted = false ∧ 1 ≤ o.reference_count ∧
      o1.reference_count = o.reference_count - 1 ∧
      (o1.deleted = true ↔ o.reference_count = 1) ∧
      (∀ a, a ≠ p → operandRefs s a = 0 → s1[a]? = s[a]?) ∧
      (∀ a, operandRefs s1 a ≤ operandRefs s a) := by
  obtain ⟨s1, e1, c1, l1⟩ := destroy_consistent (some p) h
  obtain ⟨o, ho, hdel, hpos⟩ := h.live (p := p) (by simp)
  have hp1 : p < s1.length := by rw [l1]; exact (List.getElem?_eq_some.1 ho).1
  have hle := release_operandRefs_le _ _ _ _ e1
  have hc := h.count_eq p o ho
  have hc1 := c1.count_eq p s1[p] (List.getElem?_eq_getElem hp1)
  have hz1 := hle p
  simp only [refs, count_some_cons_some, if_pos] at hc hc1
  refine ⟨s1, o, s1[p], e1, c1, l1, ho, List.getElem?_eq_getElem hp1, hdel, hpos, by omega, ?_,
    ?_, hle⟩
  · rw [c1.deleted_iff p s1[p] (List.getElem?_eq_getElem hp1)]
    omega
  · intro a hap hza
    exact release_frame _ _ _ _ a e1 (by simp; exact fun h => hap h) hza

theorem make_unique {nrvo : Bool} {T : NodeType} {body : Nat → Store → Option Store}
    (hb : BodyFresh body) {s : Store} {d : Pointer} {s1 : Store}
    (h : Expression.make nrvo T body s = some (d, s1)) :
    d = some s.length ∧ Fresh s s1 ∧
      ∃ ops, s1[s.length]? = some
        { type := T, reference_count := 1, operands := ops, deleted := false } := by
  obtain ⟨s2, ops, e2, f2, r2⟩ := make_fresh nrvo T body hb s
  rw [e2] at h
  cases h
  exact ⟨rfl, f2, ops, r2⟩

theorem mem_of_mem_set {l : List Pointer} {i : Nat} {b x : Pointer} (hb : b ∈ l)
    (h : x ∈ l.set i b) : x ∈ l := by
  rcases List.mem_or_eq_of_mem_set h with h | h
  · exact h
  · rw [h]; exact hb

/-- Every public operation keeps client handles apart from operand slots. -/
theorem step_separated (nrvo : Bool) (op : Op) (σ σ1 : State)
    (h : Consistent σ.handles σ.store) (hs : Separated σ.handles σ.store)
    (e : step nrvo op σ = some σ1) : Separated σ1.handles σ1.store := by
  cases op with
  | default =>
    simp only [step, Option.some.injEq] at e
    subst e
    intro a ha
    simp [Expression.default] at ha
    exact hs a ha
  | make T node =>
    simp only [step] at e
    split at e
    · cases e
    · rename_i d s1 e1
      cases e
      obtain ⟨d2, s2, e2, c2, _⟩ :=
        make_consistent nrvo T _ (constructor_consistent nrvo T node) h
      rw [e1] at e2
      cases e2
      obtain ⟨hd, f1, ops, r1⟩ := make_unique (constructor_fresh nrvo T node) e1
      subst hd
      intro a ha
      show operandRefs s1 a = 0
      simp only [List.mem_append, List.mem_singleton, Option.some.injEq] at ha
      rcases ha with ha | ha
      · have hlt := h.ext_valid a ha
        have hc := h.count_eq a σ.store[a] (List.getElem?_eq_getElem hlt)
        have hc1 := c2.count_eq a σ.store[a] (by
          rw [f1.old_eq a hlt]; exact List.getElem?_eq_getElem hlt)
        have := hs a ha
        have hne : ¬ (σ.store.length = a) := by omega
        simp only [refs, count_some_cons_some, if_neg hne] at hc hc1
        omega
      · subst ha
        have hc1 := c2.count_eq _ _ r1
        simp only [refs, count_some_cons_some, if_pos] at hc1
        omega
  | copy i =>
    simp only [step] at e
    split at e
    · cases e
    · rename_i x hx
      split at e
      · cases e
      · rename_i d s1 e1
        cases e
        obtain ⟨s2, e2, _⟩ := copy_consistent h x (List.getElem?_mem hx)
        rw [e1] at e2
        cases e2
        intro a ha
        rw [copy_operandRefs e1]
        simp only [List.mem_append, List.mem_singleton] at ha
        rcases ha with ha | ha
        · exact hs a ha
        · rw [← ha] at hx; exact hs a (List.getElem?_mem hx)
  | assign i j =>
    simp only [step] at e
    split at e
    · rename_i a b ha hb
      split at e
      · cases e
      · rename_i d s1 e1
        cases e
        simp only [Expression.assign, Expression.swap] at e1
        split at e1
        · cases e1
        · rename_i c s2 e2
          split at e1
          · cases e1
          · rename_i s3 e3
            cases e1
            obtain ⟨s4, e4, _⟩ := copy_consistent h b (List.getElem?_mem hb)
            rw [e2] at e4
            cases e4
            intro x hx
            dsimp only at hx ⊢
            have hx1 : some x ∈ σ.handles := mem_of_mem_set (List.getElem?_mem hb) hx
            have := release_operandRefs_le _ _ _ _ e3 x
            rw [copy_operandRefs e2] at this
            have := hs x hx1
            omega
    · cases e
  | swap i j =>
    simp only [step] at e
    split at e
    · rename_i a b ha hb
      simp only [Expression.swap, Option.some.injEq] at e
      subst e
      intro x hx
      apply hs x
      rcases List.mem_or_eq_of_mem_set hx with hx | hx
      · exact mem_of_mem_set (List.getElem?_mem hb) hx
      · rw [hx]; exact List.getElem?_mem ha
    · cases e
  | destroy i =>
    simp only [step] at e
    split at e
    · cases e
    · rename_i x hx
      split at e
      · cases e
      · rename_i s1 e1
        cases e
        intro a ha
        show operandRefs s1 a = 0
        have := release_operandRefs_le _ _ _ _ e1 a
        have := hs a (List.mem_of_mem_eraseIdx ha)
        omega

theorem reachable_separated {nrvo : Bool} {σ : State} (h : Reachable nrvo σ) :
    Separated σ.handles σ.store := by
  induction h with
  | empty => intro a ha; simp [State.empty] at ha
  | step op σ σ1 hr hs ih => exact step_separated nrvo op σ σ1 (reachable_consistent hr) ih hs

theorem copy_frame {d e : Pointer} {s s1 : Store} (h : Expression.copy d s = some (e, s1))
    (a : Nat) (ha : d ≠ some a) : s1[a]? = s[a]? := by
  cases d with
  | none => simp [Expression.copy] at h; rw [← h.2]
  | some p =>
    simp only [Expression.copy] at h
    split at h
    · cases h
    · split at h
      · cases h
      · cases h
        exact List.getElem?_set_ne (fun hpa => ha (by rw [hpa]))

theorem copy_cleared {d e : Pointer} {s s1 : Store} (h : Expression.copy d s = some (e, s1))
    (hc : Cleared s) : Cleared s1 := by
  cases d with
  | none => simp [Expression.copy] at h; rw [← h.2]; exact hc
  | some p =>
    simp only [Expression.copy] at h
    split at h
    · cases h
    · split at h
      · cases h
      · rename_i o ho hdel
        cases h
        intro o2 ho2 hd2
        rcases List.mem_or_eq_of_mem_set ho2 with hm | hm
        · exact hc o2 hm hd2
        · subst hm
          simp only at hd2
          exact absurd hd2 hdel

theorem release_cleared : ∀ (fuel : Nat) (pending : List Pointer) (s s1 : Store),
    release fuel pending s = some s1 → Cleared s → Cleared s1 := by
  intro fuel
  induction fuel with
  | zero =>
    intro pending s s1 h hc
    cases pending with
    | nil => simp [release] at h; rw [← h]; exact hc
    | cons x xs => simp [release] at h
  | succ fuel ih =>
    intro pending s s1 h hc
    cases pending with
    | nil => simp [release] at h; rw [← h]; exact hc
    | cons x xs =>
      cases x with
      | none => exact ih xs s s1 (by simpa [release] using h) hc
      | some p =>
        simp only [release] at h
        split at h
        · cases h
        · rename_i o ho
          split at h
          · cases h
          · rename_i hdel
            split at h
            · refine ih _ _ _ h ?_
              intro o2 ho2 hd2
              rcases List.mem_or_eq_of_mem_set ho2 with hm | hm
              · exact hc o2 hm hd2
              · subst hm; rfl
            · refine ih _ _ _ h ?_
              intro o2 ho2 hd2
              rcases List.mem_or_eq_of_mem_set ho2 with hm | hm
              · exact hc o2 hm hd2
              · subst hm
                simp only at hd2
                exact absurd hd2 hdel

theorem Fresh.cleared {s s1 : Store} (f : Fresh s s1) (hc : Cleared s) : Cleared s1 := by
  intro o ho hd
  obtain ⟨a, ha⟩ := List.mem_iff_getElem?.1 ho
  by_cases hlt : a < s.length
  · rw [f.old_eq a hlt] at ha
    exact hc o (List.getElem?_mem ha) hd
  · have := (f.new_count a o (by omega) ha).2
    rw [this] at hd
    cases hd

/-- Every public operation keeps deleted objects without operands. -/
theorem step_cleared (nrvo : Bool) (op : Op) (σ σ1 : State) (hc : Cleared σ.store)
    (e : step nrvo op σ = some σ1) : Cleared σ1.store := by
  cases op with
  | default =>
    simp only [step, Option.some.injEq] at e
    subst e
    exact hc
  | make T node =>
    simp only [step] at e
    split at e
    · cases e
    · rename_i d s1 e1
      cases e
      exact (make_unique (constructor_fresh nrvo T node) e1).2.1.cleared hc
  | copy i =>
    simp only [step] at e
    split at e
    · cases e
    · split at e
      · cases e
      · rename_i d s1 e1
        cases e
        exact copy_cleared e1 hc
  | assign i j =>
    simp only [step] at e
    split at e
    · split at e
      · cases e
      · rename_i d s1 e1
        cases e
        simp only [Expression.assign, Expression.swap] at e1
        split at e1
        · cases e1
        · rename_i c s2 e2
          split at e1
          · cases e1
          · rename_i s3 e3
            cases e1
            exact release_cleared _ _ _ _ e3 (copy_cleared e2 hc)
    · cases e
  | swap i j =>
    simp only [step] at e
    split at e
    · simp only [Expression.swap, Option.some.injEq] at e
      subst e
      exact hc
    · cases e
  | destroy i =>
    simp only [step] at e
    split at e
    · cases e
    · split at e
      · cases e
      · rename_i s1 e1
        cases e
        exact release_cleared _ _ _ _ e1 hc

theorem reachable_cleared {nrvo : Bool} {σ : State} (h : Reachable nrvo σ) :
    Cleared σ.store := by
  induction h with
  | empty => intro o ho; simp [State.empty] at ho
  | step op σ σ1 _ hs ih => exact step_cleared nrvo op σ σ1 ih hs

/-- A public operation does not touch an object that no live handle points
to. -/
theorem step_untouched (nrvo : Bool) (op : Op) (σ σ1 : State)
    (e : step nrvo op σ = some σ1) (a : Nat) (o : Object)
    (hao : σ.store[a]? = some o) (hz : refs σ.handles σ.store a = 0) :
    σ1.store[a]? = some o := by
  have hza : operandRefs σ.store a = 0 := by simp only [refs] at hz; omega
  have hna : some a ∉ σ.handles := by
    rw [← List.count_eq_zero]; simp only [refs] at hz; omega
  have halt : a < σ.store.length := (List.getElem?_eq_some.1 hao).1
  cases op with
  | default =>
    simp only [step, Option.some.injEq] at e
    subst e
    exact hao
  | make T node =>
    simp only [step] at e
    split at e
    · cases e
    · rename_i d s1 e1
      cases e
      show s1[a]? = some o
      rw [(make_unique (constructor_fresh nrvo T node) e1).2.1.old_eq a halt, hao]
  | copy i =>
    simp only [step] at e
    split at e
    · cases e
    · rename_i x hx
      split at e
      · cases e
      · rename_i d s1 e1
        cases e
        show s1[a]? = some o
        rw [copy_frame e1 a (fun hxa => hna (by rw [← hxa]; exact List.getElem?_mem hx)), hao]
  | assign i j =>
    simp only [step] at e
    split at e
    · rename_i x y hx hy
      split at e
      · cases e
      · rename_i d s1 e1
        cases e
        simp only [Expression.assign, Expression.swap] at e1
        split at e1
        · cases e1
        · rename_i c s2 e2
          split at e1
          · cases e1
          · rename_i s3 e3
            cases e1
            dsimp only
            rw [release_frame _ _ _ _ a e3
              (by simp; exact fun hxa => hna (by rw [hxa]; exact List.getElem?_mem hx))
              (by rw [copy_operandRefs e2]; exact hza),
              copy_frame e2 a (fun hya => hna (by rw [← hya]; exact List.getElem?_mem hy)), hao]
    · cases e
  | swap i j =>
    simp only [step] at e
    split at e
    · simp only [Expression.swap, Option.some.injEq] at e
      subst e
      exact hao
    · cases e
  | destroy i =>
    simp only [step] at e
    split at e
    · cases e
    · rename_i x hx
      split at e
      · cases e
      · rename_i s1 e1
        cases e
        show s1[a]? = some o
        rw [release_frame _ _ _ _ a e1
          (by simp; exact fun hxa => hna (by rw [hxa]; exact List.getElem?_mem hx)) hza, hao]

theorem Reachable.of_run {nrvo : Bool} : ∀ (ops : List Op) (σ σ1 : State),
    Reachable nrvo σ → run nrvo ops σ = some σ1 → Reachable nrvo σ1 := by
  intro ops
  induction ops with
  | nil =>
    intro σ σ1 h e
    simp only [run, Option.some.injEq] at e
    subst e
    exact h
  | cons op ops ih =>
    intro σ σ1 h e
    simp only [run] at e
    split at e
    · cases e
    · rename_i σ2 e2
      exact ih σ2 σ1 (Reachable.step op σ σ2 h e2) e

/-- The value of `make` in terms of the constructor body alone: whether the
return copies the local handle makes no difference. -/
theorem make_eq (nrvo : Bool) (T : NodeType) (body : Nat → Store → Option Store)
    (hb : BodyFresh body) (s : Store) :
    ∃ s2, body s.length
        (s ++ [{ type := T, reference_count := 1, operands := [], deleted := false }]) = some s2 ∧
      Expression.make nrvo T body s = some (some s.length, s2) := by
  obtain ⟨s2, ops, e2, l2, old2, root2, new2⟩ := hb s.length
    (s ++ [{ type := T, reference_count := 1, operands := [], deleted := false }]) _
    (List.getElem?_concat_length s _)
  refine ⟨s2, e2, ?_⟩
  cases nrvo with
  | true =>
    simp [Expression.make, Expression.allocate, e2, Expression.remake, Expression.default,
      release_null]
  | false =>
    obtain ⟨s4, e4, e5⟩ := copy_destroy s2 (some s.length) (by
      intro q hq
      cases hq
      exact ⟨_, root2, by simp, rfl⟩)
    simp [Expression.make, Expression.allocate, e2, Expression.remake, Expression.default,
      release_null, e4, e5]

theorem read_Scalar (nrvo : Bool) (t : String) (s : Store) :
    read nrvo (.Scalar t) s = some (none, s) := by
  simp [read]

theorem Logical_Sequence (nrvo : Bool) (p : Nat) (items : List Node) (s : Store) :
    Logical nrvo p (.Sequence items) s = for_each nrvo p items s := by
  simp [Logical]

theorem Logical_Scalar (nrvo : Bool) (p : Nat) (t : String) (s : Store) :
    Logical nrvo p (.Scalar t) s = some s := by
  simp [Logical]

theorem for_each_nil (nrvo : Bool) (p : Nat) (s : Store) : for_each nrvo p [] s = some s := by
  simp [for_each]

theorem make_body (nrvo : Bool) (T : NodeType) (body : Nat → Store → Option Store)
    (hb : BodyFresh body) (s s2 : Store)
    (h : body s.length
      (s ++ [{ type := T, reference_count := 1, operands := [], deleted := false }]) = some s2) :
    Expression.make nrvo T body s = some (some s.length, s2) := by
  obtain ⟨s3, e3, m3⟩ := make_eq nrvo T body hb s
  rw [h] at e3
  cases e3
  exact m3

theorem read_predicate (nrvo : Bool) (entries : List (String × Node)) (v : Node) (s : Store)
    (h1 : Node.get "All" entries = none) (h2 : Node.get "Any" entries = none)
    (h3 : Node.get "Type" entries = some v) (h4 : Node.get "Params" entries = none) :
    read nrvo (.Map entries) s = some (some s.length,
      s ++ [{ type := .Predicate, reference_count := 1, operands := [], deleted := false }]) := by
  rw [read]
  split
  · rename_i x hx; rw [h1] at hx; cases hx
  · split
    · rename_i x hx; rw [h2] at hx; cases hx
    · split
      · split
        · rename_i x hx; rw [h4] at hx; cases hx
        · exact make_body nrvo .Predicate _ BodyFresh.skip s _ rfl
      · rename_i hx; rw [h3] at hx; cases hx

theorem for_each_cons (nrvo : Bool) (p : Nat) (each : Node) (rest : List Node) (s s1 : Store)
    (t : Pointer) (o : Object) (hr : read nrvo each s = some (t, s1)) (ho : s1[p]? = some o)
    (ht : ∀ q, t = some q → q ≠ p ∧ ∃ oq, s1[q]? = some oq ∧ 1 ≤ oq.reference_count
      ∧ oq.deleted = false) :
    for_each nrvo p (each :: rest) s
      = for_each nrvo p rest (s1.set p { o with operands := o.operands ++ [t] }) := by
  obtain ⟨s2, e2, e3⟩ := push_back_destroy s1 p o t ho ht
  simp only [for_each, hr, e2, e3]

theorem step_make (nrvo : Bool) (T : NodeType) (node : Node) (σ : State) (d : Pointer)
    (s : Store) (h : Expression.make nrvo T (constructor nrvo T node) σ.store = some (d, s)) :
    step nrvo (.make T node) σ = some { store := s, handles := σ.handles ++ [d] } := by
  simp only [step, h]

theorem step_copy (nrvo : Bool) (i : Nat) (σ : State) (x d : Pointer) (s : Store)
    (hx : σ.handles[i]? = some x) (h : Expression.copy x σ.store = some (d, s)) :
    step nrvo (.copy i) σ = some { store := s, handles := σ.handles ++ [d] } := by
  simp only [step, hx, h]

theorem step_destroy (nrvo : Bool) (i : Nat) (σ : State) (x : Pointer) (s : Store)
    (hx : σ.handles[i]? = some x) (h : Expression.destroy x σ.store = some s) :
    step nrvo (.destroy i) σ = some { store := s, handles := σ.handles.eraseIdx i } := by
  simp only [step, hx, h]

theorem sample_read (nrvo : Bool) :
    read nrvo (.Map [("Type", .Scalar "p")])
      [{ type := .And, reference_count := 1, operands := [], deleted := false }]
      = some (some 1, [{ type := .And, reference_count := 1, operands := [], deleted := false },
          { type := .Predicate, reference_count := 1, operands := [], deleted := false }]) := by
  have := read_predicate nrvo [("Type", .Scalar "p")] (.Scalar "p")
    [{ type := .And, reference_count := 1, operands := [], deleted := false }]
    (by simp [Node.get]) (by simp [Node.get]) (by simp [Node.get]) (by simp [Node.get])
  simpa using this

theorem sample_for_each (nrvo : Bool) :
    for_each nrvo 0 [.Map [("Type", .Scalar "p")], .Scalar "true"]
      [{ type := .And, reference_count := 1, operands := [], deleted := false }]
      = some [{ type := .And, reference_count := 1, operands := [some 1, none],
                deleted := false },
              { type := .Predicate, reference_count := 1, operands := [], deleted := false }] := by
  have h2 := for_each_cons nrvo 0 _ [.Scalar "true"] _ _ _
    { type := .And, reference_count := 1, operands := [], deleted := false }
    (sample_read nrvo) (by simp) (by
      intro q hq
      simp only [Option.some.injEq] at hq
      subst hq
      refine ⟨by simp, ?_⟩
      simp)
  have h3 := for_each_cons nrvo 0 (.Scalar "true") [] _ _ none
    { type := .And, reference_count := 1, operands := [some 1], deleted := false }
    (read_Scalar nrvo "true"
      [{ type := .And, reference_count := 1, operands := [some 1], deleted := false },
       { type := .Predicate, reference_count := 1, operands := [], deleted := false }])
    (by simp) (by intro q hq; simp at hq)
  simp only [List.set_cons_zero, List.nil_append] at h2
  rw [h2, h3, for_each_nil]
  simp

theorem sample_make (nrvo : Bool) :
    Expression.make nrvo .And
      (constructor nrvo .And (.Sequence [.Map [("Type", .Scalar "p")], .Scalar "true"])) []
      = some (some 0,
        [{ type := .And, reference_count := 1, operands := [some 1, none], deleted := false },
         { type := .Predicate, reference_count := 1, operands := [], deleted := false }]) :=
  make_body nrvo .And _ (constructor_fresh nrvo .And
      (.Sequence [.Map [("Type", .Scalar "p")], .Scalar "true"])) []
    [{ type := .And, reference_count := 1, operands := [some 1, none], deleted := false },
     { type := .Predicate, reference_count := 1, operands := [], deleted := false }]
    (by
      simp only [constructor, Logical_Sequence, List.nil_append, List.length_nil]
      exact sample_for_each nrvo)

theorem sample_make_Or (nrvo : Bool) (s : Store) :
    Expression.make nrvo .Or (constructor nrvo .Or (.Scalar "x")) s
      = some (some s.length,
        s ++ [{ type := .Or, reference_count := 1, operands := [], deleted := false }]) :=
  make_body nrvo .Or _ (constructor_fresh nrvo .Or (.Scalar "x")) s _
    (by simp only [constructor, Logical_Scalar])

theorem sample_make_Predicate (nrvo : Bool) (s : Store) :
    Expression.make nrvo .Predicate (constructor nrvo .Predicate .Null) s
      = some (some s.length,
        s ++ [{ type := .Predicate, reference_count := 1, operands := [], deleted := false }]) :=
  make_body nrvo .Predicate _ (constructor_fresh nrvo .Predicate .Null) s _
    (by simp only [constructor])

theorem sample_reachable (nrvo : Bool) : Reachable nrvo sample_state := by
  have r0 : Reachable nrvo State.empty := Reachable.empty
  have r1 := Reachable.step _ _ _ r0
    (step_make nrvo .And _ ⟨[], []⟩ _ _ (sample_make nrvo))
  have r2 := Reachable.step _ _ _ r1 (step_copy nrvo 0 _ (some 0) (some 0)
    [{ type := .And, reference_count := 2, operands := [some 1, none], deleted := false },
     { type := .Predicate, reference_count := 1, operands := [], deleted := false }] rfl rfl)
  have r3 := Reachable.step (.default) _ _ r2 rfl
  have r4 := Reachable.step _ _ _ r3 (step_make nrvo .Or (.Scalar "x") _ _ _
    (sample_make_Or nrvo _))
  have r5 := Reachable.step _ _ _ r4 (step_make nrvo .Predicate .Null _ _ _
    (sample_make_Predicate nrvo _))
  have r6 := Reachable.step _ _ _ r5 (step_destroy nrvo 4 _ (some 3)
    [{ type := .And, reference_count := 2, operands := [some 1, none], deleted := false },
     { type := .Predicate, reference_count := 1, operands := [], deleted := false },
     { type := .Or, reference_count := 1, operands := [], deleted := false },
     { type := .Predicate, reference_count := 0, operands := [], deleted := true }] rfl rfl)
  exact r6

theorem operandRefs_le_weight (s : Store) (a : Nat) : operandRefs s a ≤ s.weight := by
  simp only [operandRefs, Store.weight]
  apply List.sum_le_sum
  intro o _
  have := List.count_le_length (some a) o.operands
  omega

/-- In a reachable state no count exceeds the number of handle objects in
existence (client handles and operand slots), which is why the increments of
`reference_count` cannot overflow `std::size_t`. -/
theorem reachable_count_le {nrvo : Bool} {σ : State} (h : Reachable nrvo σ) (a : Nat)
    (o : Object) (hao : σ.store[a]? = some o) :
    o.reference_count ≤ σ.handles.length + σ.store.weight := by
  rw [(reachable_consistent h).count_eq a o hao]
  have h1 := List.count_le_length (some a) σ.handles
  have h2 := operandRefs_le_weight σ.store a
  simp only [refs]
  omega

/-! ## The claims on ownership -/

/-- C1. In every state reached from the empty store by public handle
operations (default construction, `make`, copy construction, assignment,
`swap`, destruction, in any order): the `reference_count` stored in every
object equals the number of live handles whose `data` points to it (client
handles plus operand slots; a deleted object holds no operand); an object is
deleted exactly when its count is zero, so never while a live handle points to
it; every live handle, in the client or in an `operands` vector, points to an
object that is not deleted; every public operation on existing handles runs
without touching a deleted object; and a deleted object is never changed
again, so it is never deleted twice. -/
theorem reference_count_invariant (nrvo : Bool) (σ : State) (h : Reachable nrvo σ) :
    (∀ (a : Nat) (o : Object), σ.store[a]? = some o →
      o.reference_count = refs σ.handles σ.store a ∧
      (o.deleted = true ↔ o.reference_count = 0) ∧
      (o.deleted = true → o.operands = [])) ∧
    (∀ a, some a ∈ σ.handles → ∃ o, σ.store[a]? = some o ∧ o.deleted = false) ∧
    (∀ (o : Object), o ∈ σ.store → ∀ a, some a ∈ o.operands →
      ∃ o1, σ.store[a]? = some o1 ∧ o1.deleted = false) ∧
    (∀ op : Op, op.valid σ → ∃ σ1, step nrvo op σ = some σ1) ∧
    (∀ (op : Op) (σ1 : State), step nrvo op σ = some σ1 →
      ∀ (a : Nat) (o : Object), σ.store[a]? = some o → o.deleted = true →
        σ1.store[a]? = some o) := by
  have hc := reachable_consistent h
  have hcl := reachable_cleared h
  refine ⟨?_, ?_, ?_, ?_, ?_⟩
  · intro a o hao
    exact ⟨hc.count_eq a o hao, hc.deleted_iff a o hao, hcl o (List.getElem?_mem hao)⟩
  · intro a ha
    obtain ⟨o, ho, hd, _⟩ := hc.live ha
    exact ⟨o, ho, hd⟩
  · intro o ho a ha
    have hlt := hc.operands_valid o ho a ha
    refine ⟨σ.store[a], List.getElem?_eq_getElem hlt, ?_⟩
    have hcnt := hc.count_eq a σ.store[a] (List.getElem?_eq_getElem hlt)
    have hpos : operandRefs σ.store a ≠ 0 := fun hz => operandRefs_eq_zero hz o ho ha
    cases hd : (σ.store[a]).deleted with
    | false => rfl
    | true =>
      have := (hc.deleted_iff a σ.store[a] (List.getElem?_eq_getElem hlt)).1 hd
      simp only [refs] at hcnt
      omega
  · intro op hv
    obtain ⟨σ1, e1, _⟩ := step_consistent nrvo op σ hc hv
    exact ⟨σ1, e1⟩
  · intro op σ1 e a o hao hd
    refine step_untouched nrvo op σ σ1 e a o hao ?_
    have h1 := (hc.deleted_iff a o hao).1 hd
    have h2 := hc.count_eq a o hao
    omega

theorem reference_count_invariant_witness :
    Reachable false sample_state ∧
    (∀ (a : Nat) (o : Object), sample_state.store[a]? = some o →
      o.reference_count = refs sample_state.handles sample_state.store a ∧
      (o.deleted = true ↔ o.reference_count = 0) ∧
      (o.deleted = true → o.operands = [])) ∧
    (∀ op : Op, op.valid sample_state → ∃ σ1, step false op sample_state = some σ1) :=
  ⟨sample_reachable false,
    (reference_count_invariant false sample_state (sample_reachable false)).1,
    (reference_count_invariant false sample_state (sample_reachable false)).2.2.2.1⟩

theorem eraseIdx_concat_length (l : List Pointer) (x : Pointer) :
    (l ++ [x]).eraseIdx l.length = l := by
  rw [List.eraseIdx_append_of_length_le (Nat.le_refl _)]
  simp

/-- The exact effect of copying a live handle. -/
theorem copy_spec {ext : List Pointer} {s : Store} (h : Consistent ext s) (d : Pointer)
    (hd : d ∈ ext) :
    ∃ s1, Expression.copy d s = some (d, s1) ∧ Expression.destroy d s1 = some s ∧
      s1.length = s.length ∧ (d = none → s1 = s) ∧
      (∀ p, d = some p → ∃ o, s[p]? = some o ∧ o.deleted = false ∧ 1 ≤ o.reference_count ∧
        s1[p]? = some { o with reference_count := o.reference_count + 1 }) ∧
      (∀ a, d ≠ some a → s1[a]? = s[a]?) := by
  obtain ⟨s1, e1, e2⟩ := copy_destroy s d (by
    intro q hq
    subst hq
    obtain ⟨o, ho, hdel, hpos⟩ := h.live hd
    exact ⟨o, ho, hpos, hdel⟩)
  refine ⟨s1, e1, e2, copy_length e1, ?_, ?_, fun a ha => copy_frame e1 a ha⟩
  · intro hn
    subst hn
    simp [Expression.copy] at e1
    exact e1.symm
  · intro p hp
    subst hp
    obtain ⟨o, ho, hdel, hpos⟩ := h.live hd
    refine ⟨o, ho, hdel, hpos, ?_⟩
    simp only [Expression.copy, ho, hdel] at e1
    simp only [Bool.false_eq_true, if_false, Option.some.injEq, Prod.mk.injEq, true_and] at e1
    rw [← e1, List.getElem?_set_self (List.getElem?_eq_some.1 ho).1, hdel]

/-- C3. For every handle `h` of a reachable state (the `i`-th, with `data`
equal to `d`), copy-constructing `c` from `h` succeeds and gives `c` the same
`data`; no object is allocated; when `h` is empty the store is unchanged and
`c` is empty; when `h` points to an object, that object is the same except that
its `reference_count` is one greater; every other object is unchanged; the
client's handles are the old ones followed by `c`, so `h` is unchanged. -/
theorem copy_shares_payload (nrvo : Bool) (σ : State) (h : Reachable nrvo σ) (i : Nat)
    (d : Pointer) (hi : σ.handles[i]? = some d) :
    ∃ s1, Expression.copy d σ.store = some (d, s1) ∧
      step nrvo (.copy i) σ = some { store := s1, handles := σ.handles ++ [d] } ∧
      s1.length = σ.store.length ∧
      (d = none → s1 = σ.store) ∧
      (∀ p, d = some p → ∃ o, σ.store[p]? = some o ∧
        s1[p]? = some { o with reference_count := o.reference_count + 1 }) ∧
      (∀ a, d ≠ some a → s1[a]? = σ.store[a]?) := by
  obtain ⟨s1, e1, _, l1, hn, hp, hf⟩ :=
    copy_spec (reachable_consistent h) d (List.getElem?_mem hi)
  refine ⟨s1, e1, by simp [step, hi, e1], l1, hn, ?_, hf⟩
  intro p hd
  obtain ⟨o, ho, _, _, r⟩ := hp p hd
  exact ⟨o, ho, r⟩

theorem copy_shares_payload_witness :
    Reachable false sample_state ∧ sample_state.handles[1]? = some (some 0) ∧
    ∃ s1, Expression.copy (some 0) sample_state.store = some (some 0, s1) ∧
      step false (.copy 1) sample_state
        = some { store := s1, handles := sample_state.handles ++ [some 0] } ∧
      s1.length = sample_state.store.length ∧
      (some 0 = none → s1 = sample_state.store) ∧
      (∀ p, some 0 = some p → ∃ o, sample_state.store[p]? = some o ∧
        s1[p]? = some { o with reference_count := o.reference_count + 1 }) ∧
      (∀ a, some 0 ≠ some a → s1[a]? = sample_state.store[a]?) :=
  ⟨sample_reachable false, rfl,
    copy_shares_payload false sample_state (sample_reachable false) 1 (some 0) rfl⟩

/-- C4. For handles `a` (the `i`-th) and `b` (the `j`-th) of a reachable
state that point to different objects, or with `a` empty: the assignment
`a = b` succeeds; afterwards `a` has the `data` of `b` and `b` is unchanged;
the object of `b`, if any, is the same except that its count is one greater;
the object `a` pointed to before, if any, was live with a count of at least 1,
its count is one less, and it is deleted if and only if that count is zero. -/
theorem assign_releases_and_adopts (nrvo : Bool) (σ : State) (h : Reachable nrvo σ)
    (i j : Nat) (a b : Pointer) (ha : σ.handles[i]? = some a) (hb : σ.handles[j]? = some b)
    (hab : a ≠ b ∨ a = none) :
    ∃ s1, Expression.assign a b σ.store = some (b, s1) ∧
      step nrvo (.assign i j) σ = some { store := s1, handles := σ.handles.set i b } ∧
      (σ.handles.set i b)[i]? = some b ∧ (σ.handles.set i b)[j]? = some b ∧
      (∀ q, b = some q → ∃ o, σ.store[q]? = some o ∧
        s1[q]? = some { o with reference_count := o.reference_count + 1 }) ∧
      (∀ p, a = some p → ∃ o o1, σ.store[p]? = some o ∧ s1[p]? = some o1 ∧
        o.deleted = false ∧ 1 ≤ o.reference_count ∧
        o1.reference_count = o.reference_count - 1 ∧
        (o1.deleted = true ↔ o1.reference_count = 0)) := by
  have hc := reachable_consistent h
  have hs := reachable_separated h
  have hi : i < σ.handles.length := (List.getElem?_eq_some.1 ha).1
  obtain ⟨s1, e1, _, l1, hn1, hp1, hf1⟩ := copy_spec hc b (List.getElem?_mem hb)
  obtain ⟨s1c, e1c, c1, _⟩ := copy_consistent hc b (List.getElem?_mem hb)
  rw [e1] at e1c
  cases e1c
  have c1a : Consistent (a :: σ.handles.set i b) s1 := by
    apply c1.congr
    intro x
    have := count_set_get σ.handles i a b (some x) ha
    simp only [List.count_cons, beq_iff_eq]
    omega
  have hset_i : (σ.handles.set i b)[i]? = some b := List.getElem?_set_self hi
  have hset_j : (σ.handles.set i b)[j]? = some b := by
    rw [List.getElem?_set]
    split
    · rename_i hij
      simp [hi]
    · exact hb
  cases a with
  | none =>
    refine ⟨s1, ?_, ?_, hset_i, hset_j, ?_, ?_⟩
    · simp [Expression.assign, e1, Expression.swap, Expression.destroy, release_null]
    · simp [step, ha, hb, Expression.assign, e1, Expression.swap, Expression.destroy,
        release_null]
    · intro q hq
      obtain ⟨o, ho, _, _, r⟩ := hp1 q hq
      exact ⟨o, ho, r⟩
    · intro p hp; cases hp
  | some p =>
    have hbp : b ≠ some p := by
      rcases hab with hab | hab
      · exact fun hbp => hab hbp.symm
      · cases hab
    have hzp : operandRefs s1 p = 0 := by
      rw [copy_operandRefs e1]; exact hs p (List.getElem?_mem ha)
    obtain ⟨s2, o, o1, e2, c2, l2, ho, ho1, hdel, hpos, hcnt, hd1, hfr, _⟩ :=
      destroy_spec p c1a hzp
    refine ⟨s2, ?_, ?_, hset_i, hset_j, ?_, ?_⟩
    · simp [Expression.assign, e1, Expression.swap, e2]
    · simp [step, ha, hb, Expression.assign, e1, Expression.swap, e2]
    · intro q hq
      obtain ⟨oq, hoq, _, _, r⟩ := hp1 q hq
      refine ⟨oq, hoq, ?_⟩
      rw [hfr q (by intro hqp; subst hqp; exact hbp hq) ?_]
      · exact r
      · rw [copy_operandRefs e1]
        exact hs q (by rw [← hq]; exact List.getElem?_mem hb)
    · intro p1 hp
      cases hp
      refine ⟨o, o1, ?_, ho1, hdel, hpos, hcnt, ?_⟩
      · rw [← hf1 p hbp]; exact ho
      · rw [hd1]; omega

theorem assign_releases_and_adopts_witness :
    Reachable false sample_state ∧ sample_state.handles[3]? = some (some 2) ∧
    sample_state.handles[0]? = some (some 0) ∧ ((some 2 : Pointer) ≠ some 0 ∨ some 2 = none) ∧
    ∃ s1, Expression.assign (some 2) (some 0) sample_state.store = some (some 0, s1) ∧
      step false (.assign 3 0) sample_state
        = some { store := s1, handles := sample_state.handles.set 3 (some 0) } ∧
      (sample_state.handles.set 3 (some 0))[3]? = some (some 0) ∧
      (sample_state.handles.set 3 (some 0))[0]? = some (some 0) ∧
      (∀ q, some 0 = some q → ∃ o, sample_state.store[q]? = some o ∧
        s1[q]? = some { o with reference_count := o.reference_count + 1 }) ∧
      (∀ p, some 2 = some p → ∃ o o1, sample_state.store[p]? = some o ∧ s1[p]? = some o1 ∧
        o.deleted = false ∧ 1 ≤ o.reference_count ∧
        o1.reference_count = o.reference_count - 1 ∧
        (o1.deleted = true ↔ o1.reference_count = 0)) :=
  ⟨sample_reachable false, rfl, rfl, Or.inl (by decide),
    assign_releases_and_adopts false sample_state (sample_reachable false) 3 0 (some 2) (some 0)
      rfl rfl (Or.inl (by decide))⟩

/-- C5. For every non-empty handle `h` of a reachable state (the `i`-th,
pointing to the object at `p`): the object is live with a count of at least 1;
after copying `h` and then destroying the copy, or destroying `h` itself, the
store is exactly the store before the copy, so the object is not deleted and
its count is the count before the copy; and the surviving handle still points
to `p`. -/
theorem copy_then_destroy_keeps_payload (nrvo : Bool) (σ : State) (h : Reachable nrvo σ)
    (i p : Nat) (hi : σ.handles[i]? = some (some p)) :
    ∃ o s1, σ.store[p]? = some o ∧ o.deleted = false ∧ 1 ≤ o.reference_count ∧
      step nrvo (.copy i) σ = some { store := s1, handles := σ.handles ++ [some p] } ∧
      step nrvo (.destroy σ.handles.length) { store := s1, handles := σ.handles ++ [some p] }
        = some { store := σ.store, handles := σ.handles } ∧
      step nrvo (.destroy i) { store := s1, handles := σ.handles ++ [some p] }
        = some { store := σ.store, handles := (σ.handles ++ [some p]).eraseIdx i } ∧
      ((σ.handles ++ [some p]).eraseIdx i)[σ.handles.length - 1]? = some (some p) := by
  have hc := reachable_consistent h
  have hlt : i < σ.handles.length := (List.getElem?_eq_some.1 hi).1
  obtain ⟨s1, e1, e2, _, _, hp, _⟩ := copy_spec hc (some p) (List.getElem?_mem hi)
  obtain ⟨o, ho, hdel, hpos, _⟩ := hp p rfl
  refine ⟨o, s1, ho, hdel, hpos, step_copy nrvo i σ _ _ _ hi e1, ?_, ?_, ?_⟩
  · have := step_destroy nrvo σ.handles.length
      { store := s1, handles := σ.handles ++ [some p] } (some p) σ.store
      (List.getElem?_concat_length _ _) e2
    rw [this, eraseIdx_concat_length]
  · exact step_destroy nrvo i { store := s1, handles := σ.handles ++ [some p] } (some p) σ.store
      (by
        show (σ.handles ++ [some p])[i]? = some (some p)
        rw [List.getElem?_append_left hlt]; exact hi) e2
  · rw [List.eraseIdx_append_of_lt_length hlt, List.getElem?_append_right (by
      rw [List.length_eraseIdx]; simp [hlt])]
    rw [List.length_eraseIdx]
    simp [hlt]

theorem copy_then_destroy_keeps_payload_witness :
    Reachable false sample_state ∧ sample_state.handles[0]? = some (some 0) ∧
    ∃ o s1, sample_state.store[0]? = some o ∧ o.deleted = false ∧ 1 ≤ o.reference_count ∧
      step false (.copy 0) sample_state
        = some { store := s1, handles := sample_state.handles ++ [some 0] } ∧
      step false (.destroy sample_state.handles.length)
          { store := s1, handles := sample_state.handles ++ [some 0] }
        = some { store := sample_state.store, handles := sample_state.handles } ∧
      step false (.destroy 0) { store := s1, handles := sample_state.handles ++ [some 0] }
        = some { store := sample_state.store,
                 handles := (sample_state.handles ++ [some 0]).eraseIdx 0 } ∧
      ((sample_state.handles ++ [some 0]).eraseIdx 0)[sample_state.handles.length - 1]?
        = some (some 0) :=
  ⟨sample_reachable false, rfl,
    copy_then_destroy_keeps_payload false sample_state (sample_reachable false) 0 0 rfl⟩

end Counted

/-! ## The reader: value view -/

theorem read_All (entries : List (String × Node)) (v : Node)
    (h : Node.get "All" entries = some v) : read (.Map entries) = .And (Logical v) := by
  rw [read]
  split
  · rename_i x hx
    rw [h] at hx
    cases hx
    rfl
  · rename_i hx
    rw [h] at hx
    cases hx

theorem read_Any (entries : List (String × Node)) (v : Node)
    (h0 : Node.get "All" entries = none) (h : Node.get "Any" entries = some v) :
    read (.Map entries) = .Or (Logical v) := by
  rw [read]
  split
  · rename_i x hx
    rw [h0] at hx
    cases hx
  · split
    · rename_i x hx
      rw [h] at hx
      cases hx
      rfl
    · rename_i hx
      rw [h] at hx
      cases hx

theorem read_Type (entries : List (String × Node))
    (h0 : Node.get "All" entries = none) (h1 : Node.get "Any" entries = none) :
    read (.Map entries) =
      match Node.get "Type" entries with
      | some _ =>
        match Node.get "Params" entries with
        | some _ => .null
        | none => .Predicate
      | none => .null := by
  rw [read]
  split
  · rename_i x hx
    rw [h0] at hx
    cases hx
  · split
    · rename_i x hx
      rw [h1] at hx
      cases hx
    · rfl

theorem push_back_each_eq_map (items : List Node) : push_back_each items = items.map read := by
  induction items with
  | nil => simp [push_back_each]
  | cons each rest ih => simp [push_back_each, ih]

theorem Logical_items (items : List Node) : Logical (.Sequence items) = items.map read := by
  rw [Logical, push_back_each_eq_map]

theorem Logical_not_Sequence (v : Node) (h : ∀ items, v ≠ .Sequence items) : Logical v = [] := by
  cases v with
  | Sequence items => exact absurd rfl (h items)
  | Null => simp [Logical]
  | Scalar t => simp [Logical]
  | Map entries => simp [Logical]

namespace Counted

theorem read_All_make (nrvo : Bool) (entries : List (String × Node)) (v : Node) (s : Store)
    (h : Node.get "All" entries = some v) :
    read nrvo (.Map entries) s = Expression.make nrvo .And (fun p s1 => Logical nrvo p v s1) s := by
  rw [read]
  split
  · rename_i x hx
    rw [h] at hx
    cases hx
    rfl
  · rename_i hx
    rw [h] at hx
    cases hx

theorem read_Any_make (nrvo : Bool) (entries : List (String × Node)) (v : Node) (s : Store)
    (h0 : Node.get "All" entries = none) (h : Node.get "Any" entries = some v) :
    read nrvo (.Map entries) s = Expression.make nrvo .Or (fun p s1 => Logical nrvo p v s1) s := by
  rw [read]
  split
  · rename_i x hx
    rw [h0] at hx
    cases hx
  · split
    · rename_i x hx
      rw [h] at hx
      cases hx
      rfl
    · rename_i hx
      rw [h] at hx
      cases hx

theorem read_no_key (nrvo : Bool) (entries : List (String × Node)) (s : Store)
    (h0 : Node.get "All" entries = none) (h1 : Node.get "Any" entries = none)
    (h2 : Node.get "Type" entries = none) : read nrvo (.Map entries) s = some (none, s) := by
  rw [read]
  split
  · rename_i x hx; rw [h0] at hx; cases hx
  · split
    · rename_i x hx; rw [h1] at hx; cases hx
    · split
      · rename_i x hx; rw [h2] at hx; cases hx
      · rfl

theorem sample_read_non_sequence (nrvo : Bool) :
    read nrvo (.Map [("All", .Scalar "x")]) []
      = some (some 0, [{ type := .And, reference_count := 1, operands := [], deleted := false }])
      := by
  rw [read_All_make nrvo _ (.Scalar "x") [] (by simp [Node.get])]
  exact make_body nrvo .And _ (read_Logical_fresh nrvo (.Scalar "x")).2 [] _
    (by simp only [Logical_Scalar, List.nil_append])

theorem sample_read_failed_item (nrvo : Bool) :
    read nrvo (.Map [("All", .Sequence [.Map [("Foo", .Scalar "bar")]])]) []
      = some (some 0,
        [{ type := .And, reference_count := 1, operands := [none], deleted := false }]) := by
  have h1 := for_each_cons nrvo 0 (.Map [("Foo", .Scalar "bar")]) [] _ _ none
    { type := .And, reference_count := 1, operands := [], deleted := false }
    (read_no_key nrvo [("Foo", .Scalar "bar")]
      [{ type := .And, reference_count := 1, operands := [], deleted := false }]
      (by simp [Node.get]) (by simp [Node.get]) (by simp [Node.get]))
    (by simp) (by intro q hq; simp at hq)
  simp only [List.set_cons_zero, List.nil_append] at h1
  rw [read_All_make nrvo _ (.Sequence [.Map [("Foo", .Scalar "bar")]]) [] (by simp [Node.get])]
  exact make_body nrvo .And _
    (read_Logical_fresh nrvo (.Sequence [.Map [("Foo", .Scalar "bar")]])).2 [] _
    (by
      simp only [Logical_Sequence, List.nil_append, List.length_nil]
      rw [h1, for_each_nil])

end Counted

/-! ## The reader: exceptions -/

namespace Throwing

theorem read_All_outcome (b : Bool) (entries : List (String × Node)) (v : Node)
    (h : Node.get "All" entries = some v) :
    read b (.Map entries) =
      match Logical b v with
      | .error e => .error e
      | .ok operands => .ok (.And operands) := by
  rw [read]
  split
  · rename_i x hx
    rw [h] at hx
    cases hx
    rfl
  · rename_i hx
    rw [h] at hx
    cases hx

theorem read_Any_outcome (b : Bool) (entries : List (String × Node)) (v : Node)
    (h0 : Node.get "All" entries = none) (h : Node.get "Any" entries = some v) :
    read b (.Map entries) =
      match Logical b v with
      | .error e => .error e
      | .ok operands => .ok (.Or operands) := by
  rw [read]
  split
  · rename_i x hx
    rw [h0] at hx
    cases hx
  · split
    · rename_i x hx
      rw [h] at hx
      cases hx
      rfl
    · rename_i hx
      rw [h] at hx
      cases hx

theorem read_Type_outcome (b : Bool) (entries : List (String × Node))
    (h0 : Node.get "All" entries = none) (h1 : Node.get "Any" entries = none) :
    read b (.Map entries) =
      match Node.get "Type" entries with
      | some node_type =>
        match Node.get "Params" entries with
        | some _ =>
          match as_string b node_type with
          | none => .error .TypedBadConversion
          | some _ => .ok .null
        | none =>
          match as_string b node_type with
          | none => .error .TypedBadConversion
          | some _ => .ok .Predicate
      | none => .ok .null := by
  rw [read]
  split
  · rename_i x hx
    rw [h0] at hx
    cases hx
  · split
    · rename_i x hx
      rw [h1] at hx
      cases hx
    · rfl

theorem Logical_items_outcome (b : Bool) (items : List Node) :
    Logical b (.Sequence items) = push_back_each b items := by
  rw [Logical]

theorem Logical_not_Sequence_outcome (b : Bool) (v : Node) (h : ∀ items, v ≠ .Sequence items) :
    Logical b v = .ok [] := by
  cases v with
  | Sequence items => exact absurd rfl (h items)
  | Null => simp [Logical]
  | Scalar t => simp [Logical]
  | Map entries => simp [Logical]

theorem push_back_each_nil (b : Bool) : push_back_each b [] = .ok [] := by
  rw [push_back_each]

theorem push_back_each_cons (b : Bool) (each : Node) (rest : List Node) :
    push_back_each b (each :: rest) =
      match read b each with
      | .error e => .error e
      | .ok operand =>
        match push_back_each b rest with
        | .error e => .error e
        | .ok operands => .ok (operand :: operands) := by
  rw [push_back_each]

/-- The loop returns when `read` returns on every item: the operands are the
handles returned, in the order of the items. -/
theorem push_back_each_returns (b : Bool) (items : List Node)
    (h : ∀ m, m ∈ items → read b m = .ok (scenario_expression.read m)) :
    push_back_each b items = .ok (items.map scenario_expression.read) := by
  induction items with
  | nil => exact push_back_each_nil b
  | cons each rest ih =>
    rw [push_back_each_cons, h each (List.mem_cons_self _ _),
      ih (fun m hm => h m (List.mem_cons_of_mem _ hm))]
    rfl

/-- An exception thrown while an item is read leaves the loop. -/
theorem push_back_each_throws (b : Bool) (items : List Node)
    (h : ∃ m, m ∈ items ∧ read b m = .error .TypedBadConversion) :
    push_back_each b items = .error .TypedBadConversion := by
  induction items with
  | nil =>
    obtain ⟨m, hm, _⟩ := h
    cases hm
  | cons each rest ih =>
    rw [push_back_each_cons]
    cases he : read b each with
    | error e =>
      cases e
      rfl
    | ok operand =>
      obtain ⟨m, hm, hthrow⟩ := h
      rcases List.mem_cons.1 hm with hm | hm
      · subst hm
        rw [he] at hthrow
        cases hthrow
      · rw [ih ⟨m, hm, hthrow⟩]

/-- Either `read` is left by the exception or it returns the handle of the
value view; so for the `operands` that the constructor leaves behind. -/
theorem read_Logical_outcome (b : Bool) : ∀ n,
    (read b n = .ok (scenario_expression.read n) ∨ read b n = .error .TypedBadConversion) ∧
    (Logical b n = .ok (scenario_expression.Logical n) ∨
      Logical b n = .error .TypedBadConversion) := by
  have ofLogical : ∀ (v : Node) (wrap : List Expression → Expression),
      (Logical b v = .ok (scenario_expression.Logical v) ∨
        Logical b v = .error .TypedBadConversion) →
      ((match Logical b v with
        | .error e => (.error e : Except Exception Expression)
        | .ok operands => .ok (wrap operands)) = .ok (wrap (scenario_expression.Logical v)) ∨
       (match Logical b v with
        | .error e => (.error e : Except Exception Expression)
        | .ok operands => .ok (wrap operands)) = .error .TypedBadConversion) := by
    intro v wrap h
    rcases h with h | h
    · rw [h]; exact Or.inl rfl
    · rw [h]; exact Or.inr rfl
  apply Node.induction
  · exact ⟨Or.inl (by simp [read, scenario_expression.read]),
      Or.inl (by simp [Logical, scenario_expression.Logical])⟩
  · intro t
    exact ⟨Or.inl (by simp [read, scenario_expression.read]),
      Or.inl (by simp [Logical, scenario_expression.Logical])⟩
  · intro items ih
    refine ⟨Or.inl (by simp [read, scenario_expression.read]), ?_⟩
    rw [Logical_items_outcome, scenario_expression.Logical_items]
    by_cases hthrow : ∃ m, m ∈ items ∧ read b m = .error .TypedBadConversion
    · exact Or.inr (push_back_each_throws b items hthrow)
    · refine Or.inl (push_back_each_returns b items ?_)
      intro m hm
      rcases (ih m hm).1 with h | h
      · exact h
      · exact absurd ⟨m, hm, h⟩ hthrow
  · intro entries ih
    refine ⟨?_, Or.inl (by simp [Logical, scenario_expression.Logical])⟩
    cases h0 : Node.get "All" entries with
    | some v =>
      rw [read_All_outcome b entries v h0, scenario_expression.read_All entries v h0]
      exact ofLogical v .And (ih "All" v h0).2
    | none =>
      cases h1 : Node.get "Any" entries with
      | some v =>
        rw [read_Any_outcome b entries v h0 h1, scenario_expression.read_Any entries v h0 h1]
        exact ofLogical v .Or (ih "Any" v h1).2
      | none =>
        rw [read_Type_outcome b entries h0 h1, scenario_expression.read_Type entries h0 h1]
        cases Node.get "Type" entries with
        | none => exact Or.inl rfl
        | some node_type =>
          cases Node.get "Params" entries with
          | none =>
            cases hs : as_string b node_type with
            | none => exact Or.inr (by simp only [hs])
            | some text => exact Or.inl (by simp only [hs])
          | some w =>
            cases hs : as_string b node_type with
            | none => exact Or.inr (by simp only [hs])
            | some text => exact Or.inl (by simp only [hs])

/-- The handle that `read` returns, when it returns, is the one of the value
view. -/
theorem read_returns (b : Bool) (n : Node) (e : Expression) (h : read b n = .ok e) :
    e = scenario_expression.read n := by
  rcases (read_Logical_outcome b n).1 with h1 | h1
  · rw [h1] at h
    cases h
    rfl
  · rw [h1] at h
    cases h

end Throwing

/-- C6. For every map node, `read` tries the keys in the order `"All"`, `"Any"`,
`"Type"` and the first one present decides: with `"All"` present the result is
an `And` node built from the value of `"All"`, whatever other keys there are;
without `"All"` and with `"Any"` the result is an `Or` node built from the
value of `"Any"`, also when `"Type"` is present; with neither, the result is
what the keys `"Type"` and `"Params"` give; and a `Predicate` only ever comes
from a map with neither `"All"` nor `"Any"`.  The same holds on the store: the
call made is `make<And>` on the value of `"All"`, respectively `make<Or>` on the
value of `"Any"`.  The same order decides with the exception of the
conversion taken into account: with `"All"` present, and without `"All"` with
`"Any"` present, the outcome is that of the `Logical` constructor on that
value and the value of `"Type"` is never converted; it is converted only in a
map with neither `"All"` nor `"Any"`. -/
theorem read_key_priority (entries : List (String × Node)) :
    (∀ v, Node.get "All" entries = some v →
      read (.Map entries) = .And (Logical v) ∧
      ∀ nrvo s, Counted.read nrvo (.Map entries) s
        = Counted.Expression.make nrvo .And (fun p s1 => Counted.Logical nrvo p v s1) s) ∧
    (Node.get "All" entries = none → ∀ v, Node.get "Any" entries = some v →
      read (.Map entries) = .Or (Logical v) ∧
      ∀ nrvo s, Counted.read nrvo (.Map entries) s
        = Counted.Expression.make nrvo .Or (fun p s1 => Counted.Logical nrvo p v s1) s) ∧
    (Node.get "All" entries = none → Node.get "Any" entries = none →
      read (.Map entries) =
        match Node.get "Type" entries with
        | some _ =>
          match Node.get "Params" entries with
          | some _ => .null
          | none => .Predicate
        | none => .null) ∧
    (read (.Map entries) = .Predicate →
      Node.get "All" entries = none ∧ Node.get "Any" entries = none) ∧
    (∀ null_converts v, Node.get "All" entries = some v →
      Throwing.read null_converts (.Map entries) =
        match Throwing.Logical null_converts v with
        | .error e => .error e
        | .ok operands => .ok (.And operands)) ∧
    (Node.get "All" entries = none → ∀ null_converts v, Node.get "Any" entries = some v →
      Throwing.read null_converts (.Map entries) =
        match Throwing.Logical null_converts v with
        | .error e => .error e
        | .ok operands => .ok (.Or operands)) ∧
    (Node.get "All" entries = none → Node.get "Any" entries = none → ∀ null_converts,
      Throwing.read null_converts (.Map entries) =
        match Node.get "Type" entries with
        | some node_type =>
          match Node.get "Params" entries with
          | some _ =>
            match Throwing.as_string null_converts node_type with
            | none => .error .TypedBadConversion
            | some _ => .ok .null
          | none =>
            match Throwing.as_string null_converts node_type with
            | none => .error .TypedBadConversion
            | some _ => .ok .Predicate
        | none => .ok .null) := by
  refine ⟨fun v h => ⟨read_All entries v h, fun nrvo s => Counted.read_All_make nrvo entries v s h⟩,
    fun h0 v h => ⟨read_Any entries v h0 h, fun nrvo s => Counted.read_Any_make nrvo entries v s h0 h⟩,
    fun h0 h1 => read_Type entries h0 h1, ?_,
    fun b v h => Throwing.read_All_outcome b entries v h,
    fun h0 b v h => Throwing.read_Any_outcome b entries v h0 h,
    fun h0 h1 b => Throwing.read_Type_outcome b entries h0 h1⟩
  intro hp
  cases h0 : Node.get "All" entries with
  | some v => rw [read_All entries v h0] at hp; cases hp
  | none =>
    cases h1 : Node.get "Any" entries with
    | some v => rw [read_Any entries v h0 h1] at hp; cases hp
    | none => exact ⟨rfl, rfl⟩

/-- C7. For every map node whose `"All"` value (or, when there is no `"All"`
key, whose `"Any"` value) is a sequence of `n` items, the `And` (respectively
`Or`) node built by `read` has exactly `n` operands and its `i`-th operand is
`read` of the `i`-th item: the operands are the items read one by one in
document order. -/
theorem logical_operands_in_document_order (entries : List (String × Node))
    (items : List Node)
    (h : Node.get "All" entries = some (.Sequence items) ∨
      (Node.get "All" entries = none ∧ Node.get "Any" entries = some (.Sequence items))) :
    (Node.get "All" entries = some (.Sequence items) →
      read (.Map entries) = .And (items.map read)) ∧
    (Node.get "All" entries = none → read (.Map entries) = .Or (items.map read)) ∧
    (read (.Map entries)).operands.length = items.length ∧
    ∀ (i : Nat) (hi : i < items.length),
      (read (.Map entries)).operands[i]? = some (read items[i]) := by
  have key : (read (.Map entries)).operands = items.map read := by
    rcases h with h | ⟨h0, h⟩
    · rw [read_All entries _ h, Logical_items]; rfl
    · rw [read_Any entries _ h0 h, Logical_items]; rfl
  refine ⟨?_, ?_, by rw [key, List.length_map], ?_⟩
  · intro h1
    rw [read_All entries _ h1, Logical_items]
  · intro h0
    rcases h with h | ⟨_, h⟩
    · rw [h0] at h; cases h
    · rw [read_Any entries _ h0 h, Logical_items]
  · intro i hi
    rw [key, List.getElem?_map, List.getElem?_eq_getElem hi]
    rfl

theorem logical_operands_in_document_order_witness :
    Node.get "All" [("All", Node.Sequence [.Scalar "true", .Map [("Type", .Scalar "p")]])]
      = some (.Sequence [.Scalar "true", .Map [("Type", .Scalar "p")]]) ∧
    read (.Map [("All", .Sequence [.Scalar "true", .Map [("Type", .Scalar "p")]])])
      = .And ([Node.Scalar "true", .Map [("Type", .Scalar "p")]].map read) ∧
    (read (.Map [("All", .Sequence [.Scalar "true", .Map [("Type", .Scalar "p")]])])).operands.length
      = 2 :=
  ⟨by simp [Node.get],
    (logical_operands_in_document_order
      [("All", .Sequence [.Scalar "true", .Map [("Type", .Scalar "p")]])]
      [.Scalar "true", .Map [("Type", .Scalar "p")]] (Or.inl (by simp [Node.get]))).1
        (by simp [Node.get]),
    (logical_operands_in_document_order
      [("All", .Sequence [.Scalar "true", .Map [("Type", .Scalar "p")]])]
      [.Scalar "true", .Map [("Type", .Scalar "p")]] (Or.inl (by simp [Node.get]))).2.2.1⟩

/-- C8 (what the code does). For every scalar node, whatever it holds, `read`
returns the empty handle: no `Literal` node is built, and on the store no
object is allocated. -/
theorem read_scalar_returns_empty (text : String) :
    read (.Scalar text) = .null ∧ (read (.Scalar text)).isLiteral = false ∧
    ∀ nrvo s, Counted.read nrvo (.Scalar text) s = some (none, s) := by
  refine ⟨by simp [read], by simp [read, Expression.isLiteral], fun nrvo s => by simp [Counted.read]⟩

/-- C9 (counterexample). The map `{All: x}`, whose `"All"` value is a
scalar, is read as a non-empty `And` node with zero operands; on the empty
store, `read` allocates that `And` object and returns its address. -/
theorem read_non_sequence_operands_counterexample :
    read (.Map [("All", .Scalar "x")]) = .And [] ∧
    (read (.Map [("All", .Scalar "x")])).isNull = false ∧
    (read (.Map [("All", .Scalar "x")])).isLogical = true ∧
    ∀ nrvo, Counted.read nrvo (.Map [("All", .Scalar "x")]) []
      = some (some 0,
        [{ type := .And, reference_count := 1, operands := [], deleted := false }]) := by
  have h : read (.Map [("All", .Scalar "x")]) = .And [] := by
    rw [read_All _ (.Scalar "x") (by simp [Node.get]), Logical_not_Sequence _ (by simp)]
  rw [h]
  exact ⟨rfl, rfl, rfl, Counted.sample_read_non_sequence⟩

/-- C9 (amended). For every map node whose `"All"` value (or, when there is
no `"All"` key, whose `"Any"` value) is present but is not a sequence, `read`
does not fail: it returns a non-empty handle to an `And` (respectively `Or`)
node with zero operands. -/
theorem read_non_sequence_operands (entries : List (String × Node)) (v : Node)
    (hv : ∀ items, v ≠ .Sequence items)
    (h : Node.get "All" entries = some v ∨
      (Node.get "All" entries = none ∧ Node.get "Any" entries = some v)) :
    (Node.get "All" entries = some v → read (.Map entries) = .And []) ∧
    (Node.get "All" entries = none → read (.Map entries) = .Or []) ∧
    (read (.Map entries)).isNull = false ∧ (read (.Map entries)).isLogical = true ∧
    (read (.Map entries)).operands = [] := by
  rcases h with h | ⟨h0, h⟩
  · have e : read (.Map entries) = .And [] := by
      rw [read_All entries v h, Logical_not_Sequence v hv]
    refine ⟨fun _ => e, fun h0 => ?_, ?_⟩
    · rw [h0] at h; cases h
    · rw [e]; exact ⟨rfl, rfl, rfl⟩
  · have e : read (.Map entries) = .Or [] := by
      rw [read_Any entries v h0 h, Logical_not_Sequence v hv]
    refine ⟨fun h1 => ?_, fun _ => e, ?_⟩
    · rw [h0] at h1; cases h1
    · rw [e]; exact ⟨rfl, rfl, rfl⟩

theorem read_non_sequence_operands_witness :
    (∀ items, Node.Scalar "x" ≠ .Sequence items) ∧
    Node.get "All" [("Any", Node.Scalar "x")] = none ∧
    Node.get "Any" [("Any", Node.Scalar "x")] = some (.Scalar "x") ∧
    read (.Map [("Any", .Scalar "x")]) = .Or [] :=
  ⟨by simp, by simp [Node.get], by simp [Node.get],
    (read_non_sequence_operands [("Any", .Scalar "x")] (.Scalar "x") (by simp)
      (Or.inr ⟨by simp [Node.get], by simp [Node.get]⟩)).2.1 (by simp [Node.get])⟩

/-- C10 (counterexample). In the document `{All: [{Foo: bar}]}` the item
`{Foo: bar}` has none of the recognised keys, so `read` fails on it (it returns
the empty handle); yet `read` of the enclosing map returns a non-empty `And`
node, whose only operand is that empty handle; on the empty store, the `And`
object it allocates has the single operand `nullptr`.  No exception is thrown
on the way: nothing is converted in this document. -/
theorem read_partial_success_counterexample :
    read (.Map [("Foo", .Scalar "bar")]) = .null ∧
    read (.Map [("All", .Sequence [.Map [("Foo", .Scalar "bar")]])]) = .And [.null] ∧
    (read (.Map [("All", .Sequence [.Map [("Foo", .Scalar "bar")]])])).isNull = false ∧
    (∀ nrvo, Counted.read nrvo (.Map [("All", .Sequence [.Map [("Foo", .Scalar "bar")]])]) []
      = some (some 0,
        [{ type := .And, reference_count := 1, operands := [none], deleted := false }])) ∧
    (∀ null_converts, Throwing.read null_converts (.Map [("Foo", .Scalar "bar")]) = .ok .null) ∧
    (∀ null_converts,
      Throwing.read null_converts (.Map [("All", .Sequence [.Map [("Foo", .Scalar "bar")]])])
        = .ok (.And [.null])) := by
  have h0 : read (.Map [("Foo", .Scalar "bar")]) = .null := by
    rw [read_Type _ (by simp [Node.get]) (by simp [Node.get])]
    simp [Node.get]
  have h : read (.Map [("All", .Sequence [.Map [("Foo", .Scalar "bar")]])]) = .And [.null] := by
    rw [read_All _ (.Sequence [.Map [("Foo", .Scalar "bar")]]) (by simp [Node.get]),
      Logical_items]
    simp [h0]
  have t0 : ∀ b, Throwing.read b (.Map [("Foo", .Scalar "bar")]) = .ok .null := by
    intro b
    rw [Throwing.read_Type_outcome b _ (by simp [Node.get]) (by simp [Node.get])]
    simp [Node.get]
  have t : ∀ b,
      Throwing.read b (.Map [("All", .Sequence [.Map [("Foo", .Scalar "bar")]])])
        = .ok (.And [.null]) := by
    intro b
    rw [Throwing.read_All_outcome b _ (.Sequence [.Map [("Foo", .Scalar "bar")]])
      (by simp [Node.get]), Throwing.Logical_items_outcome, Throwing.push_back_each_cons, t0 b,
      Throwing.push_back_each_nil]
  rw [h]
  exact ⟨h0, rfl, rfl, Counted.sample_read_failed_item, t0, t⟩

/-- C10 (amended). For every map node whose `"All"` value (or, when there is
no `"All"` key, whose `"Any"` value) is a sequence: when `read` returns on
every item, `read` of the map returns a non-empty handle to a `Logical` node
whose operand at position `i` is the handle returned for the `i`-th item, empty
exactly when that one is empty, so an item on which `read` fails by returning
the empty handle is kept as an empty operand; when `read` is left by the
exception of the conversion on some item, that exception leaves `read` of the
map as well and no handle is returned. -/
theorem read_keeps_failed_items (null_converts : Bool) (entries : List (String × Node))
    (items : List Node)
    (h : Node.get "All" entries = some (.Sequence items) ∨
      (Node.get "All" entries = none ∧ Node.get "Any" entries = some (.Sequence items))) :
    ((∀ m, m ∈ items → ∃ e, Throwing.read null_converts m = .ok e) →
      Throwing.read null_converts (.Map entries) = .ok (read (.Map entries)) ∧
      (read (.Map entries)).isNull = false ∧ (read (.Map entries)).isLogical = true ∧
      (read (.Map entries)).operands.length = items.length ∧
      ∀ (i : Nat) (hi : i < items.length),
        ∃ e, (read (.Map entries)).operands[i]? = some e ∧
          Throwing.read null_converts items[i] = .ok e ∧
          (e.isNull = true ↔ Throwing.read null_converts items[i] = .ok .null)) ∧
    ((∃ m, m ∈ items ∧ Throwing.read null_converts m = .error .TypedBadConversion) →
      Throwing.read null_converts (.Map entries) = .error .TypedBadConversion) := by
  have key : (read (.Map entries)).operands = items.map read := by
    rcases h with h | ⟨h0, h⟩
    · rw [read_All entries _ h, Logical_items]; rfl
    · rw [read_Any entries _ h0 h, Logical_items]; rfl
  refine ⟨fun hret => ?_, fun hthrow => ?_⟩
  · have hitem : ∀ m, m ∈ items → Throwing.read null_converts m = .ok (read m) := by
      intro m hm
      obtain ⟨e, he⟩ := hret m hm
      rw [he, Throwing.read_returns null_converts m e he]
    have hloop := Throwing.push_back_each_returns null_converts items hitem
    refine ⟨?_, ?_, ?_, by rw [key, List.length_map], ?_⟩
    · rcases h with h | ⟨h0, h⟩
      · rw [Throwing.read_All_outcome null_converts entries _ h, Throwing.Logical_items_outcome,
          hloop, read_All entries _ h, Logical_items]
      · rw [Throwing.read_Any_outcome null_converts entries _ h0 h,
          Throwing.Logical_items_outcome, hloop, read_Any entries _ h0 h, Logical_items]
    · rcases h with h | ⟨h0, h⟩
      · rw [read_All entries _ h]; rfl
      · rw [read_Any entries _ h0 h]; rfl
    · rcases h with h | ⟨h0, h⟩
      · rw [read_All entries _ h]; rfl
      · rw [read_Any entries _ h0 h]; rfl
    · intro i hi
      have hi1 := hitem items[i] (List.getElem_mem hi)
      refine ⟨read items[i], ?_, hi1, ?_⟩
      · rw [key, List.getElem?_map, List.getElem?_eq_getElem hi]
        rfl
      · rw [hi1]
        cases read items[i] <;> simp [Expression.isNull]
  · have hloop := Throwing.push_back_each_throws null_converts items hthrow
    rcases h with h | ⟨h0, h⟩
    · rw [Throwing.read_All_outcome null_converts entries _ h, Throwing.Logical_items_outcome,
        hloop]
    · rw [Throwing.read_Any_outcome null_converts entries _ h0 h,
        Throwing.Logical_items_outcome, hloop]

theorem read_keeps_failed_items_witness :
    Node.get "All" [("All", Node.Sequence [.Map [("Foo", .Scalar "bar")]])]
      = some (.Sequence [.Map [("Foo", .Scalar "bar")]]) ∧
    Throwing.read false (.Map [("All", .Sequence [.Map [("Foo", .Scalar "bar")]])])
      = .ok (read (.Map [("All", .Sequence [.Map [("Foo", .Scalar "bar")]])])) ∧
    (read (.Map [("All", .Sequence [.Map [("Foo", .Scalar "bar")]])])).isNull = false ∧
    Node.get "All" [("All", Node.Sequence [.Map [("Type", .Scalar "p")],
        .Map [("Type", .Sequence [.Scalar "a"])]])]
      = some (.Sequence [.Map [("Type", .Scalar "p")], .Map [("Type", .Sequence [.Scalar "a"])]]) ∧
    Throwing.read false (.Map [("All", .Sequence [.Map [("Type", .Scalar "p")],
        .Map [("Type", .Sequence [.Scalar "a"])]])])
      = .error .TypedBadConversion := by
  have t0 : Throwing.read false (.Map [("Foo", .Scalar "bar")]) = .ok .null := by
    rw [Throwing.read_Type_outcome false _ (by simp [Node.get]) (by simp [Node.get])]
    simp [Node.get]
  have t1 : Throwing.read false (.Map [("Type", .Sequence [.Scalar "a"])])
      = .error .TypedBadConversion := by
    rw [Throwing.read_Type_outcome false _ (by simp [Node.get]) (by simp [Node.get])]
    simp [Node.get, Throwing.as_string]
  have r := (read_keeps_failed_items false
    [("All", .Sequence [.Map [("Foo", .Scalar "bar")]])]
    [.Map [("Foo", .Scalar "bar")]] (Or.inl (by simp [Node.get]))).1
    (by
      intro m hm
      rw [List.mem_singleton] at hm
      subst hm
      exact ⟨_, t0⟩)
  exact ⟨by simp [Node.get], r.1, r.2.1, by simp [Node.get],
    (read_keeps_failed_items false
      [("All", .Sequence [.Map [("Type", .Scalar "p")], .Map [("Type", .Sequence [.Scalar "a"])]])]
      [.Map [("Type", .Scalar "p")], .Map [("Type", .Sequence [.Scalar "a"])]]
      (Or.inl (by simp [Node.get]))).2
      ⟨_, List.mem_cons_of_mem _ (List.mem_singleton.2 rfl), t1⟩⟩

/-! ## The two views agree -/

namespace Counted

theorem view_null (fuel : Nat) (s : Store) : view fuel s none = .null := by
  cases fuel <;> rfl

/-- The tree of a handle only depends on the objects of a block that is closed
under operands. -/
theorem view_agree (lo hi : Nat) (s1 s2 : Store)
    (hag : ∀ a, lo ≤ a → a < hi → s2[a]? = s1[a]?)
    (hcl : ∀ (a : Nat) (o : Object), lo ≤ a → a < hi → s1[a]? = some o →
      ∀ b, some b ∈ o.operands → lo ≤ b ∧ b < hi) :
    ∀ (fuel : Nat) (d : Pointer), (∀ p, d = some p → lo ≤ p ∧ p < hi) →
      view fuel s2 d = view fuel s1 d := by
  intro fuel
  induction fuel with
  | zero =>
    intro d _
    cases d <;> rfl
  | succ fuel ih =>
    intro d hd
    cases d with
    | none => rfl
    | some p =>
      obtain ⟨h1, h2⟩ := hd p rfl
      simp only [view, hag p h1 h2]
      cases ho : s1[p]? with
      | none => rfl
      | some o =>
        have hmap : o.operands.map (view fuel s2) = o.operands.map (view fuel s1) := by
          apply List.map_congr_left
          intro x hx
          apply ih
          intro b hb
          subst hb
          exact hcl p o h1 h2 ho b hx
        simp only [hmap]

theorem for_each_view (nrvo : Bool) (items : List Node) (hr : ∀ m ∈ items, ReadView nrvo m) :
    ∀ (p : Nat) (s : Store) (o : Object) (s1 : Store), s[p]? = some o →
      for_each nrvo p items s = some s1 →
      ∃ ops, s1[p]? = some { o with operands := o.operands ++ ops } ∧
        (∀ b, some b ∈ ops → s.length ≤ b ∧ b < s1.length) ∧
        Closed s.length s1 ∧ s.length ≤ s1.length ∧
        (∀ a, a < s.length → a ≠ p → s1[a]? = s[a]?) ∧
        ∀ fuel, (∀ m ∈ items, sizeOf m ≤ fuel) → ops.map (view fuel s1) = items.map scenario_expression.read := by
  induction items with
  | nil =>
    intro p s o s1 ho e
    rw [for_each_nil] at e
    cases e
    refine ⟨[], by simpa using ho, by simp, ?_, Nat.le_refl _, fun _ _ _ => rfl, by simp⟩
    intro a o1 ha hao
    rw [List.getElem?_eq_none ha] at hao
    cases hao
  | cons each rest ih =>
    intro p s o s4 ho e
    have hp : p < s.length := (List.getElem?_eq_some.1 ho).1
    obtain ⟨t, s1, e1, f1, ht⟩ := (read_Logical_fresh nrvo each).1 s
    obtain ⟨hcl1, hv1⟩ := hr each (by simp) s t s1 e1
    have hl1 := f1.length_le
    have ho1 : s1[p]? = some o := by rw [f1.old_eq p hp]; exact ho
    have htr : ∀ q, t = some q → s.length ≤ q ∧ q < s1.length := by
      intro q hq
      rcases ht with ht | ⟨ht, hlt⟩
      · rw [ht] at hq; cases hq
      · rw [ht] at hq; cases hq; exact ⟨Nat.le_refl _, hlt⟩
    rw [for_each_cons nrvo p each rest s s1 t o e1 ho1 (by
      intro q hq
      obtain ⟨hq1, hq2⟩ := htr q hq
      refine ⟨by omega, s1[q], List.getElem?_eq_getElem hq2, ?_⟩
      have := f1.new_count q _ hq1 (List.getElem?_eq_getElem hq2)
      exact ⟨by omega, this.2⟩)] at e
    have hp3 : (s1.set p { o with operands := o.operands ++ [t] })[p]?
        = some { o with operands := o.operands ++ [t] } :=
      List.getElem?_set_self (by omega)
    obtain ⟨ops, r4, hr4, hcl4, hl4, old4, hv4⟩ :=
      ih (fun m hm => hr m (by simp [hm])) p _ _ s4 hp3 e
    rw [List.length_set] at hr4 hcl4 hl4 old4
    have hag : ∀ a, s.length ≤ a → a < s1.length → s4[a]? = s1[a]? := by
      intro a h1 h2
      rw [old4 a h2 (by omega), List.getElem?_set_ne (by omega)]
    refine ⟨t :: ops, ?_, ?_, ?_, by omega, ?_, ?_⟩
    · rw [r4]; simp
    · intro b hb
      simp only [List.mem_cons] at hb
      rcases hb with hb | hb
      · have := htr b hb.symm; omega
      · have := hr4 b hb; omega
    · intro a o1 ha hao b hb
      by_cases hlt : a < s1.length
      · rw [hag a ha hlt] at hao
        have := hcl1 a o1 ha hao b hb
        omega
      · have := hcl4 a o1 (by omega) hao b hb
        omega
    · intro a ha hap
      rw [old4 a (by omega) hap, List.getElem?_set_ne (Ne.symm hap), f1.old_eq a ha]
    · intro fuel hf
      simp only [List.map_cons]
      rw [hv4 fuel (fun m hm => hf m (by simp [hm]))]
      congr 1
      rw [view_agree s.length s1.length s1 s4 hag
        (fun a o1 h1 _ hao b hb => hcl1 a o1 h1 hao b hb) fuel t htr]
      exact hv1 fuel (hf each (by simp))

theorem Logical_view (nrvo : Bool) (n : Node)
    (hr : ∀ items, n = .Sequence items → ∀ m ∈ items, ReadView nrvo m) : BodyView nrvo n := by
  intro p s o s1 ho e
  have skip : Logical nrvo p n s = some s → (∀ items, n ≠ .Sequence items) →
      scenario_expression.Logical n = [] →
      ∃ ops, s1[p]? = some { o with operands := o.operands ++ ops } ∧
        (∀ b, some b ∈ ops → s.length ≤ b ∧ b < s1.length) ∧
        Closed s.length s1 ∧
        ∀ fuel, sizeOf n ≤ fuel + 1 →
          ops.map (view fuel s1) = scenario_expression.Logical n := by
    intro h1 _ h3
    rw [h1] at e
    cases e
    refine ⟨[], by simpa using ho, by simp, ?_, fun fuel _ => by simp [h3]⟩
    intro a o1 ha hao
    rw [List.getElem?_eq_none ha] at hao
    cases hao
  cases n with
  | Sequence items =>
    rw [Logical_Sequence] at e
    obtain ⟨ops, r, hrange, hcl, _, _, hv⟩ := for_each_view nrvo items (hr items rfl) p s o s1 ho e
    refine ⟨ops, r, hrange, hcl, ?_⟩
    intro fuel hf
    rw [scenario_expression.Logical_items]
    apply hv
    intro m hm
    have := List.sizeOf_lt_of_mem hm
    simp only [Node.Sequence.sizeOf_spec] at hf
    omega
  | Null => exact skip (by simp [Logical]) (by simp) (by simp [scenario_expression.Logical])
  | Scalar t => exact skip (by simp [Logical]) (by simp) (by simp [scenario_expression.Logical])
  | Map entries =>
    exact skip (by simp [Logical]) (by simp) (by simp [scenario_expression.Logical])

theorem make_view (nrvo : Bool) (T : NodeType) (v : Node) (s : Store) (d : Pointer) (s1 : Store)
    (hT : T = .And ∨ T = .Or) (hb : BodyView nrvo v)
    (e : Expression.make nrvo T (fun p s1 => Logical nrvo p v s1) s = some (d, s1)) :
    Closed s.length s1 ∧
    ∀ fuel, sizeOf v ≤ fuel →
      view (fuel + 1) s1 d
        = (if T = .And then .And (scenario_expression.Logical v)
           else .Or (scenario_expression.Logical v)) := by
  obtain ⟨s2, e2, m2⟩ := make_eq nrvo T _ (read_Logical_fresh nrvo v).2 s
  rw [m2] at e
  cases e
  obtain ⟨ops, r, hrange, hcl, hv⟩ := hb s.length _ _ s1 (List.getElem?_concat_length s _) e2
  simp only [List.length_append, List.length_singleton, List.nil_append] at hrange hcl r
  refine ⟨?_, ?_⟩
  · intro a o1 ha hao b hb1
    by_cases hap : a = s.length
    · subst hap
      rw [r] at hao
      cases hao
      have := hrange b hb1
      omega
    · have := hcl a o1 (by omega) hao b hb1
      omega
  · intro fuel hf
    have hops := hv fuel (by omega)
    rcases hT with hT | hT <;> subst hT <;> simp [view, r, hops]

theorem read_Logical_view (nrvo : Bool) : ∀ n, ReadView nrvo n ∧ BodyView nrvo n := by
  have fail : ∀ (n : Node), (∀ s, read nrvo n s = some (none, s)) →
      scenario_expression.read n = .null → ReadView nrvo n := by
    intro n h1 h2 s d s1 e
    rw [h1] at e
    cases e
    refine ⟨?_, fun fuel _ => by rw [view_null, h2]⟩
    intro a o1 ha hao
    rw [List.getElem?_eq_none ha] at hao
    cases hao
  apply Node.induction
  · exact ⟨fail _ (fun s => by simp [read]) (by simp [scenario_expression.read]),
      Logical_view nrvo _ (by intro items h; cases h)⟩
  · intro t
    exact ⟨fail _ (fun s => by simp [read]) (by simp [scenario_expression.read]),
      Logical_view nrvo _ (by intro items h; cases h)⟩
  · intro items ih
    refine ⟨fail _ (fun s => by simp [read]) (by simp [scenario_expression.read]),
      Logical_view nrvo _ ?_⟩
    intro items1 h m hm
    cases h
    exact (ih m hm).1
  · intro entries ih
    refine ⟨?_, Logical_view nrvo _ (by intro items h; cases h)⟩
    intro s d s1 e
    cases h0 : Node.get "All" entries with
    | some v =>
      rw [read_All_make nrvo entries v s h0] at e
      obtain ⟨hcl, hv⟩ := make_view nrvo .And v s d s1 (Or.inl rfl) (ih "All" v h0).2 e
      refine ⟨hcl, ?_⟩
      intro fuel hf
      have := Node.get_sizeOf h0
      simp only [Node.Map.sizeOf_spec] at hf
      obtain ⟨k, rfl⟩ : ∃ k, fuel = k + 1 := ⟨fuel - 1, by omega⟩
      rw [hv k (by omega), scenario_expression.read_All entries v h0]
      simp
    | none =>
      cases h1 : Node.get "Any" entries with
      | some v =>
        rw [read_Any_make nrvo entries v s h0 h1] at e
        obtain ⟨hcl, hv⟩ := make_view nrvo .Or v s d s1 (Or.inr rfl) (ih "Any" v h1).2 e
        refine ⟨hcl, ?_⟩
        intro fuel hf
        have := Node.get_sizeOf h1
        simp only [Node.Map.sizeOf_spec] at hf
        obtain ⟨k, rfl⟩ : ∃ k, fuel = k + 1 := ⟨fuel - 1, by omega⟩
        rw [hv k (by omega), scenario_expression.read_Any entries v h0 h1]
        simp
      | none =>
        rw [scenario_expression.read_Type entries h0 h1]
        cases h2 : Node.get "Type" entries with
        | none =>
          have : read nrvo (.Map entries) s = some (none, s) := by
            rw [read]
            split
            · rename_i x hx; rw [h0] at hx; cases hx
            · split
              · rename_i x hx; rw [h1] at hx; cases hx
              · split
                · rename_i x hx; rw [h2] at hx; cases hx
                · rfl
          rw [this] at e
          cases e
          refine ⟨?_, fun fuel _ => by rw [view_null]⟩
          intro a o1 ha hao
          rw [List.getElem?_eq_none ha] at hao
          cases hao
        | some w =>
          cases h3 : Node.get "Params" entries with
          | some u =>
            have : read nrvo (.Map entries) s = some (none, s) := by
              rw [read]
              split
              · rename_i x hx; rw [h0] at hx; cases hx
              · split
                · rename_i x hx; rw [h1] at hx; cases hx
                · split
                  · split
                    · rfl
                    · rename_i hx; rw [h3] at hx; cases hx
                  · rfl
            rw [this] at e
            cases e
            refine ⟨?_, fun fuel _ => by rw [view_null]⟩
            intro a o1 ha hao
            rw [List.getElem?_eq_none ha] at hao
            cases hao
          | none =>
            rw [read_predicate nrvo entries w s h0 h1 h2 h3] at e
            cases e
            refine ⟨?_, ?_⟩
            · intro a o1 ha hao b hb
              by_cases hap : a = s.length
              · subst hap
                rw [List.getElem?_concat_length] at hao
                cases hao
                simp at hb
              · rw [List.getElem?_eq_none (by simp; omega)] at hao
                cases hao
            · intro fuel hf
              simp only [Node.Map.sizeOf_spec] at hf
              obtain ⟨k, rfl⟩ : ∃ k, fuel = k + 1 := ⟨fuel - 1, by omega⟩
              simp [view]

/-- The two views agree: on every store, `read` succeeds, and the tree that
hangs from the handle it returns is the value of `read` on the same document
(for every depth that covers the document). -/
theorem read_view (nrvo : Bool) (n : Node) (s : Store) :
    ∃ d s1, read nrvo n s = some (d, s1) ∧
      ∀ fuel, sizeOf n ≤ fuel → view fuel s1 d = scenario_expression.read n := by
  obtain ⟨d, s1, e, _⟩ := (read_Logical_fresh nrvo n).1 s
  exact ⟨d, s1, e, ((read_Logical_view nrvo n).1 s d s1 e).2⟩

/-- Whenever `read` returns a handle, the store-level `read` builds the tree
of that handle. -/
theorem read_returns_view (null_converts nrvo : Bool) (n : Node) (s : Store)
    (e : scenario_expression.Expression) (h : Throwing.read null_converts n = .ok e) :
    ∃ d s1, read nrvo n s = some (d, s1) ∧
      ∀ fuel, sizeOf n ≤ fuel → view fuel s1 d = e := by
  rw [Throwing.read_returns null_converts n e h]
  exact read_view nrvo n s

end Counted

/-! ## The remaining claims on the reader -/

namespace Counted

theorem read_action (nrvo : Bool) (entries : List (String × Node)) (v w : Node) (s : Store)
    (h0 : Node.get "All" entries = none) (h1 : Node.get "Any" entries = none)
    (h2 : Node.get "Type" entries = some v) (h3 : Node.get "Params" entries = some w) :
    read nrvo (.Map entries) s = some (none, s) := by
  rw [read]
  split
  · rename_i x hx; rw [h0] at hx; cases hx
  · split
    · rename_i x hx; rw [h1] at hx; cases hx
    · split
      · split
        · rfl
        · rename_i hx; rw [h3] at hx; cases hx
      · rename_i hx; exact absurd h2 (by simp [hx])

theorem read_Sequence (nrvo : Bool) (items : List Node) (s : Store) :
    read nrvo (.Sequence items) s = some (none, s) := by
  simp [read]

end Counted

/-- C11 (counterexample). In the map `{Type: [a]}`, which has neither `"All"`
nor `"Any"` nor `"Params"`, the value of `"Type"` is a sequence: its conversion
to a string throws and `read` returns no handle, so no handle to a `Predicate`;
in `{Type: [a], Params: x}` it throws as well, so `read` does not return the
empty handle. -/
theorem read_procedure_call_counterexample :
    Node.get "All" [("Type", Node.Sequence [.Scalar "a"])] = none ∧
    Node.get "Any" [("Type", Node.Sequence [.Scalar "a"])] = none ∧
    Node.get "Type" [("Type", Node.Sequence [.Scalar "a"])] = some (.Sequence [.Scalar "a"]) ∧
    Node.get "Params" [("Type", Node.Sequence [.Scalar "a"])] = none ∧
    (∀ null_converts, Throwing.read null_converts (.Map [("Type", .Sequence [.Scalar "a"])])
      = .error .TypedBadConversion) ∧
    Node.get "Params" [("Type", Node.Sequence [.Scalar "a"]), ("Params", .Scalar "x")]
      = some (.Scalar "x") ∧
    (∀ null_converts, Throwing.read null_converts
        (.Map [("Type", .Sequence [.Scalar "a"]), ("Params", .Scalar "x")])
      = .error .TypedBadConversion) := by
  refine ⟨by simp [Node.get], by simp [Node.get], by simp [Node.get], by simp [Node.get], ?_,
    by simp [Node.get], ?_⟩
  · intro b
    rw [Throwing.read_Type_outcome b _ (by simp [Node.get]) (by simp [Node.get])]
    simp [Node.get, Throwing.as_string]
  · intro b
    rw [Throwing.read_Type_outcome b _ (by simp [Node.get]) (by simp [Node.get])]
    simp [Node.get, Throwing.as_string]

/-- C11 (amended). For every map node with neither an `"All"` nor an `"Any"`
key but with a `"Type"` key: when the value of `"Type"` converts to a string,
as every scalar does, then with `"Params"` absent `read` returns a non-empty
handle to a `Predicate` node, on the store one newly allocated object of class
`Predicate` with `reference_count` 1, the store being otherwise unchanged, and
with `"Params"` present `read` returns the empty handle and leaves the store
unchanged, so no `Predicate` node is built; when the value of `"Type"` does not
convert, as no sequence and no map does, `read` is left by the exception in
both shapes and returns no handle. -/
theorem read_procedure_call (null_converts : Bool) (entries : List (String × Node)) (v : Node)
    (h0 : Node.get "All" entries = none) (h1 : Node.get "Any" entries = none)
    (h2 : Node.get "Type" entries = some v) :
    (∀ text, Throwing.as_string null_converts v = some text →
      (Node.get "Params" entries = none →
        Throwing.read null_converts (.Map entries) = .ok .Predicate ∧
        read (.Map entries) = .Predicate ∧ (read (.Map entries)).isNull = false ∧
        ∀ nrvo s, Counted.read nrvo (.Map entries) s = some (some s.length,
          s ++ [{ type := .Predicate, reference_count := 1, operands := [], deleted := false }])) ∧
      (∀ w, Node.get "Params" entries = some w →
        Throwing.read null_converts (.Map entries) = .ok .null ∧
        read (.Map entries) = .null ∧
        ∀ nrvo s, Counted.read nrvo (.Map entries) s = some (none, s))) ∧
    (∀ text, Throwing.as_string null_converts (.Scalar text) = some text) ∧
    (Throwing.as_string null_converts v = none →
      Throwing.read null_converts (.Map entries) = .error .TypedBadConversion) ∧
    (∀ items, Throwing.as_string null_converts (.Sequence items) = none) ∧
    (∀ fields, Throwing.as_string null_converts (.Map fields) = none) := by
  have hv := read_Type entries h0 h1
  have ht := Throwing.read_Type_outcome null_converts entries h0 h1
  rw [h2] at hv ht
  refine ⟨fun text hs => ⟨fun h3 => ?_, fun w h3 => ?_⟩, fun text => rfl, fun hs => ?_,
    fun items => rfl, fun fields => rfl⟩
  · rw [h3] at hv ht
    simp only [hs] at hv ht
    refine ⟨ht, hv, by rw [hv]; rfl,
      fun nrvo s => Counted.read_predicate nrvo entries v s h0 h1 h2 h3⟩
  · rw [h3] at hv ht
    simp only [hs] at hv ht
    exact ⟨ht, hv, fun nrvo s => Counted.read_action nrvo entries v w s h0 h1 h2 h3⟩
  · cases h3 : Node.get "Params" entries with
    | none =>
      rw [h3] at ht
      simp only [hs] at ht
      exact ht
    | some w =>
      rw [h3] at ht
      simp only [hs] at ht
      exact ht

theorem read_procedure_call_witness :
    Node.get "All" [("Type", Node.Scalar "p")] = none ∧
    Node.get "Any" [("Type", Node.Scalar "p")] = none ∧
    Node.get "Type" [("Type", Node.Scalar "p")] = some (.Scalar "p") ∧
    Node.get "Params" [("Type", Node.Scalar "p")] = none ∧
    Throwing.as_string false (.Scalar "p") = some "p" ∧
    Throwing.read false (.Map [("Type", .Scalar "p")]) = .ok .Predicate ∧
    read (.Map [("Type", .Scalar "p")]) = .Predicate :=
  ⟨by simp [Node.get], by simp [Node.get], by simp [Node.get], by simp [Node.get], rfl,
    (((read_procedure_call false [("Type", .Scalar "p")] (.Scalar "p") (by simp [Node.get])
      (by simp [Node.get]) (by simp [Node.get])).1 "p" rfl).1 (by simp [Node.get])).1,
    (((read_procedure_call false [("Type", .Scalar "p")] (.Scalar "p") (by simp [Node.get])
      (by simp [Node.get]) (by simp [Node.get])).1 "p" rfl).1 (by simp [Node.get])).2.1⟩

/-- C12. For every map node that has none of the keys `"All"`, `"Any"`,
`"Type"`, and for every sequence node, `read` returns the empty handle, which
is no `Logical`, `Literal` or `Predicate` node; on the store it allocates
nothing and leaves every object as it was. -/
theorem read_unrecognised_returns_empty (n : Node)
    (h : (∃ items, n = .Sequence items) ∨
      (∃ entries, n = .Map entries ∧ Node.get "All" entries = none ∧
        Node.get "Any" entries = none ∧ Node.get "Type" entries = none)) :
    read n = .null ∧ (read n).isLogical = false ∧ (read n).isLiteral = false ∧
    read n ≠ .Predicate ∧
    ∀ nrvo s, Counted.read nrvo n s = some (none, s) := by
  have key : read n = .null ∧ ∀ nrvo s, Counted.read nrvo n s = some (none, s) := by
    rcases h with ⟨items, rfl⟩ | ⟨entries, rfl, h0, h1, h2⟩
    · exact ⟨by simp [read], fun nrvo s => Counted.read_Sequence nrvo items s⟩
    · refine ⟨?_, fun nrvo s => Counted.read_no_key nrvo entries s h0 h1 h2⟩
      rw [read_Type entries h0 h1, h2]
  rw [key.1]
  exact ⟨rfl, rfl, rfl, by simp, key.2⟩

theorem read_unrecognised_returns_empty_witness :
    (∃ entries, Node.Map [("Foo", .Scalar "bar")] = .Map entries ∧
      Node.get "All" entries = none ∧ Node.get "Any" entries = none ∧
      Node.get "Type" entries = none) ∧
    read (.Map [("Foo", .Scalar "bar")]) = .null ∧
    read (.Sequence [.Scalar "true"]) = .null :=
  ⟨⟨_, rfl, by simp [Node.get], by simp [Node.get], by simp [Node.get]⟩,
    (read_unrecognised_returns_empty (.Map [("Foo", .Scalar "bar")])
      (Or.inr ⟨_, rfl, by simp [Node.get], by simp [Node.get], by simp [Node.get]⟩)).1,
    (read_unrecognised_returns_empty (.Sequence [.Scalar "true"]) (Or.inl ⟨_, rfl⟩)).1⟩

/-! ## Evaluation and procedure loading: the claims -/

/-- C13 (what the code does). For every `And` and `Or` node, with any
operands, `evaluate` has an empty body: it evaluates no operand and control
reaches the end of the function without a `return`, so no value, neither true
nor false, is produced; so it is for `evaluate(read({All: []}))` and
`evaluate(read({Any: []}))`. -/
theorem evaluate_logical_returns_nothing (operands : List Expression) :
    Logical.evaluate operands = (.off_the_end, []) ∧
    (Expression.And operands).evaluate = .off_the_end ∧
    (Expression.Or operands).evaluate = .off_the_end ∧
    read (.Map [("All", .Sequence [])]) = .And [] ∧
    (read (.Map [("All", .Sequence [])])).evaluate = .off_the_end ∧
    read (.Map [("Any", .Sequence [])]) = .Or [] ∧
    (read (.Map [("Any", .Sequence [])])).evaluate = .off_the_end := by
  refine ⟨rfl, rfl, rfl, ?_, rfl, ?_, rfl⟩
  · rw [read_All _ (.Sequence []) (by simp [Node.get]), Logical_items]
    rfl
  · rw [read_Any _ (.Sequence []) (by simp [Node.get]) (by simp [Node.get]), Logical_items]
    rfl

/-- C14 (what the code does). For every handle, with or without a payload,
`evaluate` on the handle runs `Expression::evaluate`, whose body is empty: it
neither tests `data` nor calls the `evaluate` of the node the handle points to,
and control reaches the end of the function without a `return`. -/
theorem evaluate_handle_returns_nothing (handle : Expression) :
    handle.evaluate = .off_the_end ∧ Expression.null.evaluate = .off_the_end ∧
    (read (.Scalar "true")).evaluate = .off_the_end ∧
    ∀ value, handle.evaluate ≠ .returned value := by
  refine ⟨rfl, rfl, rfl, ?_⟩
  intro value h
  cases h

/-- C15. For every list of declared names and every name: when the name is
not declared, `load` never calls `createInstance` and returns the null
pointer; when it is declared, `load` calls `createInstance` once, with that
name, and returns its result. -/
theorem load_resolves_declared_names {Plugin : Type} (declarations : List String)
    (createInstance : String → Option Plugin) (name : String) :
    (name ∉ declarations →
      Procedure.load declarations createInstance name = (none, [])) ∧
    (name ∈ declarations →
      Procedure.load declarations createInstance name = (createInstance name, [name])) := by
  induction declarations with
  | nil => exact ⟨fun _ => rfl, fun h => by simp at h⟩
  | cons declaration rest ih =>
    by_cases hd : declaration = name
    · subst hd
      exact ⟨fun h => by simp at h, fun _ => by simp [Procedure.load]⟩
    · refine ⟨fun h => ?_, fun h => ?_⟩
      · simp only [Procedure.load, if_neg hd]
        exact ih.1 (fun hm => h (List.mem_cons_of_mem _ hm))
      · simp only [Procedure.load, if_neg hd]
        apply ih.2
        rcases List.mem_cons.1 h with h | h
        · exact absurd h.symm hd
        · exact h

namespace Counted

/-! ## Where payloads are freed -/

theorem set_same_handle (l : List Pointer) (i : Nat) (a : Pointer) (h : l[i]? = some a) :
    l.set i a = l := by
  apply List.ext_getElem?
  intro k
  rw [List.getElem?_set]
  split
  · rename_i hik
    subst hik
    have hi : i < l.length := (List.getElem?_eq_some.1 h).1
    simp [hi, h]
  · rfl

/-- The store after `make` holds no deleted object that was not deleted
before: `make`, and `remake` inside it, free nothing. -/
theorem make_frees_nothing {nrvo : Bool} {T : NodeType} {node : Node} {s s1 : Store}
    {d : Pointer} (e : Expression.make nrvo T (constructor nrvo T node) s = some (d, s1))
    (a : Nat) (o1 : Object) (h1 : s1[a]? = some o1) (hd : o1.deleted = true) :
    s[a]? = some o1 := by
  obtain ⟨_, f, _⟩ := make_unique (constructor_fresh nrvo T node) e
  by_cases hlt : a < s.length
  · rw [← f.old_eq a hlt]; exact h1
  · have := (f.new_count a o1 (by omega) h1).2
    rw [this] at hd
    cases hd

theorem copy_frees_nothing {x d : Pointer} {s s1 : Store}
    (e : Expression.copy x s = some (d, s1)) (a : Nat) (o1 : Object)
    (h1 : s1[a]? = some o1) (hd : o1.deleted = true) : s[a]? = some o1 := by
  cases x with
  | none =>
    simp [Expression.copy] at e
    rw [e.2]; exact h1
  | some p =>
    simp only [Expression.copy] at e
    split at e
    · cases e
    · rename_i o ho
      split at e
      · cases e
      · rename_i hdel
        cases e
        by_cases hpa : p = a
        · subst hpa
          rw [List.getElem?_set_self (List.getElem?_eq_some.1 ho).1] at h1
          cases h1
          simp only at hd
          exact absurd hd hdel
        · rw [List.getElem?_set_ne hpa] at h1
          exact h1

/-- C16. In every execution of the public operations: `remake` is called by
`make` only, on the default-constructed local handle, whose `data` is
`nullptr`, so the condition that guards `delete data` in `remake` is false and
`remake` leaves the store as it is; `make` as a whole deletes no object; and an
object that is deleted after a public operation and was not before (as the same
deleted object) was deleted by a handle destructor: the operation is the
destruction of a handle or an assignment, whose temporary is destroyed. -/
theorem only_destruction_frees (nrvo : Bool) (σ : State) :
    (∀ (T : NodeType) (body : Nat → Store → Option Store) (s : Store),
      Expression.make nrvo T body s =
        match body s.length (Expression.allocate T s).2 with
        | none => none
        | some s2 =>
          match Expression.remake Expression.default s.length s2 with
          | none => none
          | some (e1, s3) =>
            if nrvo then some (e1, s3)
            else
              match Expression.copy e1 s3 with
              | none => none
              | some (r, s4) =>
                match Expression.destroy e1 s4 with
                | none => none
                | some s5 => some (r, s5)) ∧
    (∀ (p : Nat) (s : Store), Expression.frees Expression.default s = false ∧
      Expression.remake Expression.default p s = some (some p, s)) ∧
    (∀ (op : Op) (σ1 : State), step nrvo op σ = some σ1 →
      ∀ (a : Nat) (o1 : Object), σ1.store[a]? = some o1 → o1.deleted = true →
        σ.store[a]? = some o1 ∨ (∃ i, op = .destroy i) ∨ (∃ i j, op = .assign i j)) := by
  refine ⟨fun T body s => rfl, fun p s => ⟨rfl, ?_⟩, ?_⟩
  · simp [Expression.remake, Expression.default, release_null]
  · intro op σ1 e a o1 h1 hd
    cases op with
    | default =>
      simp only [step, Option.some.injEq] at e
      subst e
      exact Or.inl h1
    | make T node =>
      simp only [step] at e
      split at e
      · cases e
      · rename_i d s1 e1
        cases e
        exact Or.inl (make_frees_nothing e1 a o1 h1 hd)
    | copy i =>
      simp only [step] at e
      split at e
      · cases e
      · split at e
        · cases e
        · rename_i d s1 e1
          cases e
          exact Or.inl (copy_frees_nothing e1 a o1 h1 hd)
    | assign i j => exact Or.inr (Or.inr ⟨i, j, rfl⟩)
    | swap i j =>
      simp only [step] at e
      split at e
      · simp only [Expression.swap, Option.some.injEq] at e
        subst e
        exact Or.inl h1
      · cases e
    | destroy i => exact Or.inr (Or.inl ⟨i, rfl⟩)

/-- C17. For handles `a` (the `i`-th) and `b` (the `j`-th) of a reachable
state with the same `data`, in particular for `i = j`: the assignment `a = b`
succeeds and leaves the whole state, store and handles, exactly as it was, so
both still point to the same object, its count is the count before and nothing
is deleted; when they point to an object, its count is at least 1 before, the
copy inside the assignment raises it by one and the destruction of the
temporary lowers it back, so it is never zero in between. -/
theorem assign_same_payload_is_identity (nrvo : Bool) (σ : State) (h : Reachable nrvo σ)
    (i j : Nat) (a : Pointer) (ha : σ.handles[i]? = some a) (hb : σ.handles[j]? = some a) :
    Expression.assign a a σ.store = some (a, σ.store) ∧
    step nrvo (.assign i j) σ = some σ ∧
    (∀ p, a = some p → ∃ o s1, σ.store[p]? = some o ∧ o.deleted = false ∧
      1 ≤ o.reference_count ∧ Expression.copy a σ.store = some (a, s1) ∧
      s1[p]? = some { o with reference_count := o.reference_count + 1 } ∧
      Expression.destroy a s1 = some σ.store) := by
  obtain ⟨s1, e1, e2, _, _, hp, _⟩ :=
    copy_spec (reachable_consistent h) a (List.getElem?_mem hb)
  have hassign : Expression.assign a a σ.store = some (a, σ.store) := by
    simp [Expression.assign, e1, Expression.swap, e2]
  refine ⟨hassign, ?_, ?_⟩
  · simp only [step, ha, hb, hassign, set_same_handle σ.handles i a ha]
  · intro p hpa
    obtain ⟨o, ho, hdel, hpos, r⟩ := hp p hpa
    exact ⟨o, s1, ho, hdel, hpos, e1, r, e2⟩

theorem assign_same_payload_is_identity_witness :
    Reachable false sample_state ∧ sample_state.handles[0]? = some (some 0) ∧
    sample_state.handles[1]? = some (some 0) ∧
    step false (.assign 0 1) sample_state = some sample_state ∧
    step false (.assign 0 0) sample_state = some sample_state :=
  ⟨sample_reachable false, rfl, rfl,
    (assign_same_payload_is_identity false sample_state (sample_reachable false) 0 1 (some 0)
      rfl rfl).2.1,
    (assign_same_payload_is_identity false sample_state (sample_reachable false) 0 0 (some 0)
      rfl rfl).2.1⟩

end Counted

namespace Counted

/-! ## The tree that the reader builds -/

theorem Reaches.bounds {s1 : Store} {lo : Nat} (hc : Closed lo s1) {d : Pointer} {a : Nat}
    (h : Reaches s1 d a) (hd : d = some lo) (hlt : lo < s1.length) : lo ≤ a ∧ a < s1.length := by
  induction h with
  | root a =>
    cases hd
    exact ⟨Nat.le_refl _, hlt⟩
  | operand d a b o _ ho hb ih =>
    exact hc a o (ih hd).1 ho b hb

theorem Reaches.not_null {s1 : Store} {d : Pointer} {a : Nat} (h : Reaches s1 d a) : d ≠ none := by
  induction h with
  | root a => simp
  | operand d a b o _ _ _ ih => exact ih

/-- C18. Run in a store that satisfies the reference-count invariant, with
`ext` the handles that exist outside the store, `read` returns a handle and a
store in which every object reachable from that handle (the object it points
to and, through the `operands` vectors, the object of every non-empty operand)
was built by this call, is not deleted and has `reference_count` 1; exactly
one handle points to it: the returned handle for the root, which no operand
slot points to, and one operand slot for every other object, which no handle
outside the store points to. -/
theorem read_builds_unshared_tree (nrvo : Bool) (ext : List Pointer) (s : Store)
    (hs : Consistent ext s) (n : Node) :
    ∃ d s1, read nrvo n s = some (d, s1) ∧
      (d = none ∨ d = some s.length) ∧
      ∀ a, Reaches s1 d a →
        s.length ≤ a ∧
        (∃ o, s1[a]? = some o ∧ o.reference_count = 1 ∧ o.deleted = false) ∧
        refs (d :: ext) s1 a = 1 ∧
        some a ∉ ext ∧
        (d = some a → operandRefs s1 a = 0) ∧
        (d ≠ some a → operandRefs s1 a = 1) := by
  obtain ⟨d, s1, e, f, hd⟩ := (read_Logical_fresh nrvo n).1 s
  obtain ⟨d1, s2, e1, c, _⟩ := read_consistent nrvo n ext s hs
  rw [e] at e1
  cases e1
  have hcl := ((read_Logical_view nrvo n).1 s d s1 e).1
  refine ⟨d, s1, e, hd.imp id (fun h => h.1), ?_⟩
  intro a ha
  rcases hd with hd | ⟨hd, hlt⟩
  · exact absurd hd (Reaches.not_null ha)
  · have hb := Reaches.bounds hcl ha hd hlt
    have hlen : a < s1.length := hb.2
    have hnew := f.new_count a _ hb.1 (List.getElem?_eq_getElem hlen)
    have hcnt := c.count_eq a _ (List.getElem?_eq_getElem hlen)
    rw [hnew.1] at hcnt
    have hext : some a ∉ ext := fun hm => by
      have := hs.ext_valid a hm
      omega
    have hz : ext.count (some a) = 0 := List.count_eq_zero.2 hext
    refine ⟨hb.1, ⟨_, List.getElem?_eq_getElem hlen, hnew⟩, hcnt.symm, hext, ?_, ?_⟩
    · intro hda
      rw [refs, hda, count_some_cons_some, hz] at hcnt
      simp only [if_true] at hcnt
      omega
    · intro hda
      rw [refs, List.count_cons, hz] at hcnt
      have : (d == some a) = false := by simpa using hda
      rw [this] at hcnt
      simp only [Bool.false_eq_true, if_false] at hcnt
      omega

theorem read_builds_unshared_tree_witness :
    Consistent sample_state.handles sample_state.store ∧
    ∃ d s1, read false (.Map [("All", .Sequence [.Map [("Type", .Scalar "p")]])])
        sample_state.store = some (d, s1) ∧
      (d = none ∨ d = some sample_state.store.length) ∧
      ∀ a, Reaches s1 d a →
        sample_state.store.length ≤ a ∧
        (∃ o, s1[a]? = some o ∧ o.reference_count = 1 ∧ o.deleted = false) ∧
        refs (d :: sample_state.handles) s1 a = 1 ∧
        some a ∉ sample_state.handles ∧
        (d = some a → operandRefs s1 a = 0) ∧
        (d ≠ some a → operandRefs s1 a = 1) :=
  ⟨reachable_consistent (sample_reachable false),
    read_builds_unshared_tree false sample_state.handles sample_state.store
      (reachable_consistent (sample_reachable false))
      (.Map [("All", .Sequence [.Map [("Type", .Scalar "p")]])])⟩

/-! ## Termination of the reader -/

theorem release_length : ∀ (fuel : Nat) (pending : List Pointer) (s s1 : Store),
    release fuel pending s = some s1 → s1.length = s.length := by
  intro fuel
  induction fuel with
  | zero =>
    intro pending s s1 h
    cases pending with
    | nil => simp [release] at h; rw [h]
    | cons x xs => simp [release] at h
  | succ fuel ih =>
    intro pending s s1 h
    cases pending with
    | nil => simp [release] at h; rw [h]
    | cons x xs =>
      cases x with
      | none => exact ih xs s s1 (by simpa [release] using h)
      | some p =>
        simp only [release] at h
        split at h
        · cases h
        · split at h
          · cases h
          · split at h
            · rw [ih _ _ _ h, List.length_set]
            · rw [ih _ _ _ h, List.length_set]

theorem push_back_length {p : Nat} {x : Pointer} {s s1 : Store}
    (h : push_back p x s = some s1) : s1.length = s.length := by
  simp only [push_back] at h
  split at h
  · cases h
  · rename_i c s2 hc
    split at h
    · cases h
    · cases h
      rw [List.length_set, copy_length hc]

theorem for_each_length (nrvo : Bool) (items : List Node)
    (hr : ∀ m ∈ items, ∀ (s : Store) (d : Pointer) (s1 : Store),
      read nrvo m s = some (d, s1) → s1.length ≤ s.length + sizeOf m) :
    ∀ (p : Nat) (s s1 : Store), for_each nrvo p items s = some s1 →
      s1.length ≤ s.length + sizeOf items := by
  induction items with
  | nil =>
    intro p s s1 h
    rw [for_each_nil] at h
    cases h
    omega
  | cons each rest ih =>
    intro p s s1 h
    rw [for_each] at h
    split at h
    · cases h
    · rename_i t s2 h2
      split at h
      · cases h
      · rename_i s3 h3
        split at h
        · cases h
        · rename_i s4 h4
          have l2 := hr each (List.mem_cons_self _ _) s t s2 h2
          have l3 := push_back_length h3
          have l4 := release_length _ _ _ _ h4
          have l5 := ih (fun m hm => hr m (List.mem_cons_of_mem _ hm)) p s4 s1 h
          simp only [List.cons.sizeOf_spec]
          omega

theorem read_Logical_length (nrvo : Bool) : ∀ n,
    (∀ (s : Store) (d : Pointer) (s1 : Store), read nrvo n s = some (d, s1) →
      s1.length ≤ s.length + sizeOf n) ∧
    (∀ (p : Nat) (s s1 : Store), Logical nrvo p n s = some s1 →
      s1.length + 1 ≤ s.length + sizeOf n) := by
  have ofMake : ∀ (T : NodeType) (v : Node) (k : Nat) (s : Store) (d : Pointer) (s1 : Store),
      (∀ (p : Nat) (s s1 : Store), Logical nrvo p v s = some s1 →
        s1.length + 1 ≤ s.length + sizeOf v) → sizeOf v ≤ k →
      Expression.make nrvo T (fun p s1 => Logical nrvo p v s1) s = some (d, s1) →
      s1.length ≤ s.length + k := by
    intro T v k s d s1 hb hk h
    obtain ⟨s2, e2, e3⟩ := make_eq nrvo T _ (read_Logical_fresh nrvo v).2 s
    rw [e3] at h
    cases h
    have := hb _ _ _ e2
    simp only [List.length_append, List.length_singleton] at this
    omega
  apply Node.induction
  · refine ⟨fun s d s1 h => ?_, fun p s s1 h => ?_⟩
    · simp only [read, Option.some.injEq, Prod.mk.injEq] at h
      rw [← h.2]
      omega
    · simp only [Logical, Option.some.injEq] at h
      rw [← h]
      simp
  · intro t
    refine ⟨fun s d s1 h => ?_, fun p s s1 h => ?_⟩
    · simp only [read, Option.some.injEq, Prod.mk.injEq] at h
      rw [← h.2]
      omega
    · rw [Logical_Scalar] at h
      cases h
      simp only [Node.Scalar.sizeOf_spec]
      omega
  · intro items ih
    refine ⟨fun s d s1 h => ?_, fun p s s1 h => ?_⟩
    · simp only [read, Option.some.injEq, Prod.mk.injEq] at h
      rw [← h.2]
      omega
    · rw [Logical_Sequence] at h
      have := for_each_length nrvo items (fun m hm => (ih m hm).1) p s s1 h
      simp only [Node.Sequence.sizeOf_spec]
      omega
  · intro entries ih
    refine ⟨fun s d s1 h => ?_, fun p s s1 h => ?_⟩
    · rw [read] at h
      split at h
      · rename_i node_and h_and
        have := Node.get_sizeOf h_and
        exact ofMake .And node_and _ s d s1 (ih "All" node_and h_and).2
          (by simp only [Node.Map.sizeOf_spec]; omega) h
      · split at h
        · rename_i node_or h_or
          have := Node.get_sizeOf h_or
          exact ofMake .Or node_or _ s d s1 (ih "Any" node_or h_or).2
            (by simp only [Node.Map.sizeOf_spec]; omega) h
        · split at h
          · split at h
            · cases h
              omega
            · obtain ⟨s2, e2, e3⟩ := make_eq nrvo .Predicate _ BodyFresh.skip s
              rw [e3] at h
              cases h
              cases e2
              simp only [List.length_append, List.length_singleton, Node.Map.sizeOf_spec]
              omega
          · cases h
            omega
    · have hl : Logical nrvo p (.Map entries) s = some s := by simp [Logical]
      rw [hl] at h
      cases h
      simp only [Node.Map.sizeOf_spec]
      omega

end Counted

theorem read_calls_operands (n : Node) : (read n).operands = (read_calls n).map read := by
  cases n with
  | Null => simp [read, read_calls, Expression.operands]
  | Scalar t => simp [read, read_calls, Expression.operands]
  | Sequence items => simp [read, read_calls, Expression.operands]
  | Map entries =>
    have hl : ∀ v, Logical v = (Logical_calls v).map read := by
      intro v
      cases v with
      | Sequence items => rw [Logical_items, Logical_calls]
      | Null => rw [Logical_not_Sequence _ (by intro items h; cases h)]; rfl
      | Scalar t => rw [Logical_not_Sequence _ (by intro items h; cases h)]; rfl
      | Map es => rw [Logical_not_Sequence _ (by intro items h; cases h)]; rfl
    rw [read]
    split
    · rename_i v hv
      simp only [Expression.operands, hl, read_calls, hv]
    · rename_i h0
      split
      · rename_i v hv
        simp only [Expression.operands, hl, read_calls, h0, hv]
      · rename_i h1
        have hr : read_calls (.Map entries) = [] := by simp only [read_calls, h0, h1]
        rw [hr]
        split
        · split <;> rfl
        · rfl

theorem read_calls_sub (n m : Node) (h : m ∈ read_calls n) :
    ∃ entries key items, n = .Map entries ∧
      Node.get key entries = some (.Sequence items) ∧ m ∈ items := by
  cases n with
  | Null => simp [read_calls] at h
  | Scalar t => simp [read_calls] at h
  | Sequence items => simp [read_calls] at h
  | Map entries =>
    have hl : ∀ v, m ∈ Logical_calls v → ∃ items, v = .Sequence items ∧ m ∈ items := by
      intro v hv
      cases v with
      | Sequence items => exact ⟨items, rfl, hv⟩
      | Null => simp [Logical_calls] at hv
      | Scalar t => simp [Logical_calls] at hv
      | Map es => simp [Logical_calls] at hv
    simp only [read_calls] at h
    split at h
    · rename_i v hv
      obtain ⟨items, e, hm⟩ := hl v h
      exact ⟨entries, "All", items, rfl, e ▸ hv, hm⟩
    · split at h
      · rename_i v hv
        obtain ⟨items, e, hm⟩ := hl v h
        exact ⟨entries, "Any", items, rfl, e ▸ hv, hm⟩
      · simp at h

theorem read_calls_sizeOf (n m : Node) (h : m ∈ read_calls n) : sizeOf m < sizeOf n := by
  obtain ⟨entries, key, items, e, hg, hm⟩ := read_calls_sub n m h
  subst e
  have h1 := Node.get_sizeOf hg
  have h2 := List.sizeOf_lt_of_mem hm
  simp only [Node.Sequence.sizeOf_spec, Node.Map.sizeOf_spec] at h1 ⊢
  omega

/-- C19. The calls of `read` from within `read n` (through the `Logical`
constructor) are on items of a sequence stored under a key of the map `n`,
which are strictly smaller than `n`; the relation "is called by" is
well-founded, so no chain of nested calls is infinite; the operands of the
result are the results of exactly these calls; and on every store `read`
returns, having allocated at most as many objects as the document has
nodes. -/
theorem read_terminates (n : Node) :
    (∀ m, m ∈ read_calls n → sizeOf m < sizeOf n ∧
      ∃ entries key items, n = .Map entries ∧
        Node.get key entries = some (.Sequence items) ∧ m ∈ items) ∧
    WellFounded (fun m k : Node => m ∈ read_calls k) ∧
    (read n).operands = (read_calls n).map read ∧
    (∀ (nrvo : Bool) (s : Counted.Store), ∃ d s1, Counted.read nrvo n s = some (d, s1) ∧
      s.length ≤ s1.length ∧ s1.length ≤ s.length + sizeOf n) := by
  refine ⟨fun m hm => ⟨read_calls_sizeOf n m hm, read_calls_sub n m hm⟩, ?_,
    read_calls_operands n, ?_⟩
  · exact Subrelation.wf (fun {m k} (h : m ∈ read_calls k) => read_calls_sizeOf k m h)
      (InvImage.wf (fun k : Node => sizeOf k) Nat.lt_wfRel.wf)
  · intro nrvo s
    obtain ⟨d, s1, e, f, _⟩ := (Counted.read_Logical_fresh nrvo n).1 s
    exact ⟨d, s1, e, f.length_le, (Counted.read_Logical_length nrvo n).1 s d s1 e⟩

end scenario_expression
